import Mathlib

/-!
Shallow embedding of the MouseTesterRust LOD engine.

Sources embedded here:
- src/src/mouse_event.rs: the pcap-timestamp MouseMoveEvent used by the library.
- src/src/lod.rs: regression-segmented LOD (build_segments, collect_visible_indices).
- src/src/gui.rs together with src/src/main.rs: the bucketed-extrema resolver
  (MouseAnalyzerGui.apply_lod_indices) over the binary-crate MouseMoveEvent,
  which stores time directly as an f64 field.

Modelling conventions:
- f64 values are modelled as rationals; every finite f64 is a rational, and the
  claims under study do not depend on rounding of individual arithmetic ops.
- Results of the nalgebra SVD solve (fit_cubic) and of f64::ln are not
  rational-computable, so they enter as explicit function parameters
  (fit_cubic, lnF); theorems quantify over all possible values, hence they
  cover the actual floating-point behaviour.
- Rust usize/saturating casts: (x as usize) on a float is Int.toNat of the
  floor, (x as i32) truncates toward zero.
- HashSet / HashMap state that is used only through insert and membership is
  modelled as Finset; the iteration order of the per-segment HashMap is made
  explicit through an order parameter (see collectVisibleIndicesWith).
-/

/- The Batteries rational arithmetic operations are marked irreducible, which
blocks kernel evaluation of concrete examples; restore default reducibility
for them inside this file so that decide can evaluate the model. -/
set_option allowUnsafeReducibility true

attribute [local semireducible] Rat.add Rat.mul Rat.sub Rat.inv Rat.ofScientific

/-- Rust float-to-i32 cast: truncation toward zero. -/
def f64AsI32 (q : ℚ) : ℤ := if 0 ≤ q then q.floor else q.ceil

/-- Rust float-to-usize cast: truncation toward zero, negative values saturate to 0. -/
def f64AsUsize (q : ℚ) : ℕ := q.floor.toNat

/-- Rust (q.ceil() as usize): ceiling, negative values saturate to 0. -/
def ceilAsUsize (q : ℚ) : ℕ := q.ceil.toNat

/-- Rust Vec::dedup on a list: removes consecutive duplicates. -/
def dedupConsecutive : List ℕ → List ℕ
  | [] => []
  | [a] => [a]
  | a :: b :: rest =>
    if a = b then dedupConsecutive (b :: rest) else a :: dedupConsecutive (b :: rest)

/-- Rust Iterator::step_by k: keeps the elements at positions 0, k, 2k, ... -/
def stepBy (k : ℕ) (l : List α) : List α :=
  (l.enum.filter (fun p => p.1 % k = 0)).map Prod.snd

/-- Loop body of core slice binary search (binary_search_by), as used by
partition_point: pred plays the role of (cmp == Less), and the size and mid
locals of the source are inlined (mid = left + (right - left) / 2). The fuel
argument only bounds the iteration count; right - left shrinks at every step,
so fuel len + 1 is never exhausted when called with left = 0, right = len. -/
def binarySearchLoop (pred : α → Bool) (l : List α) (dflt : α) :
    ℕ → ℕ → ℕ → ℕ
  | 0, left, _ => left
  | fuel + 1, left, right =>
    if left < right then
      if pred (l.getD (left + (right - left) / 2) dflt) then
        binarySearchLoop pred l dflt fuel (left + (right - left) / 2 + 1) right
      else
        binarySearchLoop pred l dflt fuel left (left + (right - left) / 2)
    else left

/-- Rust slice::partition_point. -/
def partitionPoint (pred : α → Bool) (l : List α) (dflt : α) : ℕ :=
  binarySearchLoop pred l dflt (l.length + 1) 0 l.length

/-! mouse_event.rs -/

/-- MouseMoveEvent from src/src/mouse_event.rs (pcap timestamps). Button and
wheel data is not carried; the LOD engine reads only these four fields. -/
structure MouseMoveEvent where
  dx : ℤ
  dy : ℤ
  ts_sec : ℕ
  ts_usec : ℕ
  deriving DecidableEq, Repr

/-- time_secs accessor: ts_sec + ts_usec * 10^-6. -/
def MouseMoveEvent.time_secs (e : MouseMoveEvent) : ℚ :=
  (e.ts_sec : ℚ) + (e.ts_usec : ℚ) / 1000000

/-- Indexing events.get(i); call sites in the source are bounds-guarded, the
default only makes the model total. -/
def evAt (events : List MouseMoveEvent) (i : ℕ) : MouseMoveEvent :=
  events.getD i ⟨0, 0, 0, 0⟩

/-! lod.rs: data model -/

/-- MIN_RANGE_VALUE = 1e-10. -/
def MIN_RANGE_VALUE : ℚ := 1 / 10000000000

/-- Cubic polynomial coefficients. -/
structure Poly3 where
  a0 : ℚ
  a1 : ℚ
  a2 : ℚ
  a3 : ℚ
  deriving DecidableEq, Repr

/-- Evaluate the polynomial at t. -/
def Poly3.eval (p : Poly3) (t : ℚ) : ℚ :=
  p.a0 + p.a1 * t + p.a2 * t * t + p.a3 * t * t * t

/-- Zero polynomial. -/
def Poly3.zero : Poly3 := ⟨0, 0, 0, 0⟩

/-- Result of regression analysis for a segment. -/
structure SegmentFit where
  start_idx : ℕ
  end_idx : ℕ
  dx_poly : Poly3
  dy_poly : Poly3
  time_poly : Poly3
  dx_r_squared : ℚ
  dy_r_squared : ℚ
  time_r_squared : ℚ
  deriving DecidableEq, Repr

/-- Segment of events with classification. -/
inductive Segment where
  | Good (start_idx end_idx : ℕ) (fit : SegmentFit)
  | Discrete (idx : ℕ)
  deriving DecidableEq, Repr

/-- normalize_to_unit. The source folds min and max starting from the float
infinities; for a nonempty list that equals folding from the first element,
and the empty case is returned early. -/
def normalize_to_unit (values : List ℚ) : List ℚ × ℚ × ℚ :=
  match values with
  | [] => ([], 0, 1)
  | v :: vs =>
    let min_val := (v :: vs).foldl min v
    let max_val := (v :: vs).foldl max v
    let range := max (max_val - min_val) MIN_RANGE_VALUE
    ((v :: vs).map (fun x => (x - min_val) / range), min_val, range)

/-- calculate_r_squared. -/
def calculate_r_squared (y_actual y_pred : List ℚ) : ℚ :=
  if y_actual.length ≠ y_pred.length ∨ y_actual = [] then 0
  else
    let n : ℚ := y_actual.length
    let y_mean := y_actual.sum / n
    let ss_tot := (y_actual.map (fun y => (y - y_mean) ^ 2)).sum
    let ss_res := ((y_actual.zip y_pred).map (fun p => (p.1 - p.2) ^ 2)).sum
    if ss_tot < MIN_RANGE_VALUE then 1 else 1 - ss_res / ss_tot

/-- analyze_segment, parameterized by the SVD-based fit_cubic solver. The
source fit_cubic also returns none below 4 points, but analyze_segment
rejects that case itself first. -/
def analyze_segment (fit_cubic : List ℚ → List ℚ → Option Poly3)
    (events : List MouseMoveEvent) (start_idx end_idx : ℕ) : Option SegmentFit :=
  let n := end_idx - start_idx
  if n < 4 then none
  else
    let indices : List ℚ := (List.range n).map (fun i => (i : ℚ))
    let idx_norm := (normalize_to_unit indices).1
    let times := (List.range n).map (fun i => (evAt events (start_idx + i)).time_secs)
    let dx_vals := (List.range n).map (fun i => ((evAt events (start_idx + i)).dx : ℚ))
    let dy_vals := (List.range n).map (fun i => ((evAt events (start_idx + i)).dy : ℚ))
    match fit_cubic idx_norm dx_vals, fit_cubic idx_norm dy_vals, fit_cubic idx_norm times with
    | some dx_poly, some dy_poly, some time_poly =>
      let dx_pred := idx_norm.map dx_poly.eval
      let dy_pred := idx_norm.map dy_poly.eval
      let time_pred := idx_norm.map time_poly.eval
      some ⟨start_idx, end_idx, dx_poly, dy_poly, time_poly,
        calculate_r_squared dx_vals dx_pred,
        calculate_r_squared dy_vals dy_pred,
        calculate_r_squared times time_pred⟩
    | _, _, _ => none

/-! lod.rs: build_segments -/

/-- Mutable locals of the size-search loop inside build_segments. best_score
and best_r_squared start at f64::NEG_INFINITY, modelled by WithBot bottom. -/
structure SegSearchState where
  best_fit : Option SegmentFit
  best_score : WithBot ℚ
  best_r_squared : WithBot ℚ
  current_size : ℕ
  fit_tolerance : ℕ
  deriving DecidableEq

/-- Shared tail of one iteration of the size-search loop: grow current_size by
growth_factor (float ceil, cast to usize) and raise best_r_squared. -/
def segGrow (growth_factor : ℚ) (st : SegSearchState) (avg_r_squared : ℚ) : SegSearchState :=
  let st := { st with current_size := ceilAsUsize ((st.current_size : ℚ) * growth_factor) }
  if (avg_r_squared : WithBot ℚ) > st.best_r_squared then
    { st with best_r_squared := (avg_r_squared : WithBot ℚ) }
  else st

/-- The inner while loop of build_segments at a fixed position pos. With
growth_factor greater than 1 the loop runs at most events.length iterations
(current_size strictly grows), so the fuel passed by build_segments is never
exhausted on inputs where the Rust loop terminates; on fuel exhaustion the
current best fit is returned, which keeps the function total. -/
def segLoop (fit_cubic : List ℚ → List ℚ → Option Poly3)
    (lnF : ℕ → ℚ) (events : List MouseMoveEvent)
    (pos : ℕ) (growth_factor min_r_squared balance_weight : ℚ) :
    ℕ → SegSearchState → Option SegmentFit
  | 0, st => st.best_fit
  | fuel + 1, st =>
    if pos + st.current_size ≤ events.length then
      match analyze_segment fit_cubic events pos (pos + st.current_size) with
      | some fit =>
        let avg_r_squared := (fit.dx_r_squared + fit.dy_r_squared + fit.time_r_squared) / 3
        if avg_r_squared ≥ min_r_squared ∧ fit.time_r_squared ≥ min_r_squared * (7 / 10) then
          let length_score := lnF st.current_size
          let score := balance_weight * length_score + (1 - balance_weight) * avg_r_squared
          let st :=
            if (score : WithBot ℚ) > st.best_score then
              { st with best_score := (score : WithBot ℚ), best_fit := some fit,
                        fit_tolerance := 0 }
            else st
          segLoop fit_cubic lnF events pos growth_factor min_r_squared balance_weight
            fuel (segGrow growth_factor st avg_r_squared)
        else
          let tol := st.fit_tolerance + 1
          if (avg_r_squared : WithBot ℚ) > st.best_r_squared then
            if tol > 10 then st.best_fit
            else
              segLoop fit_cubic lnF events pos growth_factor min_r_squared balance_weight
                fuel (segGrow growth_factor { st with fit_tolerance := tol } avg_r_squared)
          else
            if tol > 3 then st.best_fit
            else
              segLoop fit_cubic lnF events pos growth_factor min_r_squared balance_weight
                fuel (segGrow growth_factor { st with fit_tolerance := tol } avg_r_squared)
      | none => st.best_fit
    else st.best_fit

/-- The outer while loop of build_segments. Every iteration advances pos by at
least 1 (a Good segment advances by end_idx - start_idx, at least 4 since
analyze_segment rejects fewer than 4 points; a Discrete advances by 1), so
fuel events.length + 1 covers the whole scan from pos = 0. -/
def buildLoop (fit_cubic : List ℚ → List ℚ → Option Poly3) (lnF : ℕ → ℚ)
    (events : List MouseMoveEvent)
    (initial_size : ℕ) (growth_factor min_r_squared balance_weight : ℚ) :
    ℕ → ℕ → List Segment
  | 0, _ => []
  | fuel + 1, pos =>
    if pos < events.length then
      match segLoop fit_cubic lnF events pos growth_factor min_r_squared balance_weight
          (events.length + 1) ⟨none, ⊥, ⊥, initial_size, 0⟩ with
      | some fit =>
        Segment.Good fit.start_idx fit.end_idx fit ::
          buildLoop fit_cubic lnF events initial_size growth_factor min_r_squared
            balance_weight fuel (pos + (fit.end_idx - fit.start_idx))
      | none =>
        Segment.Discrete pos ::
          buildLoop fit_cubic lnF events initial_size growth_factor min_r_squared
            balance_weight fuel (pos + 1)
    else []

/-- build_segments from src/src/lod.rs, parameterized by the SVD fit solver and
by the f64 natural-log function used in the length score. -/
def build_segments (fit_cubic : List ℚ → List ℚ → Option Poly3) (lnF : ℕ → ℚ)
    (events : List MouseMoveEvent) (initial_size : ℕ)
    (growth_factor min_r_squared balance_weight : ℚ) : List Segment :=
  if events = [] then []
  else
    buildLoop fit_cubic lnF events initial_size growth_factor min_r_squared balance_weight
      (events.length + 1) 0

/-- Index range covered by a segment: a Good segment covers
[start_idx, end_idx), a Discrete segment covers its single index. -/
def segIndices : Segment → List ℕ
  | Segment.Good s e _ => List.range' s (e - s)
  | Segment.Discrete i => [i]

/-! lod.rs: collect_visible_indices -/

/-- Integer pixel coordinates. -/
def Pixel : Type := ℤ × ℤ

instance : DecidableEq Pixel := instDecidableEqProd

/-- The to_pixel closure: map an event to integer pixel coordinates using the
clamped scales derived from the view ranges. -/
def toPixel (render_width render_height : ℚ) (x_range y_range : ℚ × ℚ)
    (e : MouseMoveEvent) : Pixel :=
  let x_scale := render_width / max (x_range.2 - x_range.1) MIN_RANGE_VALUE
  let y_scale := render_height / max (y_range.2 - y_range.1) MIN_RANGE_VALUE
  (f64AsI32 ((e.time_secs - x_range.1) * x_scale),
   f64AsI32 ((-(e.dy : ℚ) - y_range.1) * y_scale))

/-- The is_visible closure: event time inside [x_min, x_max]. -/
def is_visible (x_range : ℚ × ℚ) (e : MouseMoveEvent) : Bool :=
  decide (x_range.1 ≤ e.time_secs ∧ e.time_secs ≤ x_range.2)

/-- HashMap entry(pixel).or_insert(Vec::new).push(idx): append idx to the group
of the pixel, creating the group at the end on first occurrence (first-insertion
order is the canonical order of the group list). -/
def insertGroup : List (Pixel × List ℕ) → Pixel → ℕ → List (Pixel × List ℕ)
  | [], p, i => [(p, [i])]
  | (q, is) :: rest, p, i =>
    if q = p then (q, is ++ [i]) :: rest else (q, is) :: insertGroup rest p i

/-- The pixel_counts HashMap of one Good segment: group the visible events of
[start_idx, end_idx) by pixel. -/
def pixelGroups (events : List MouseMoveEvent) (render_width render_height : ℚ)
    (x_range y_range : ℚ × ℚ) (start_idx end_idx : ℕ) : List (Pixel × List ℕ) :=
  (List.range' start_idx (end_idx - start_idx)).foldl
    (fun acc i =>
      if is_visible x_range (evAt events i) then
        insertGroup acc (toPixel render_width render_height x_range y_range (evAt events i)) i
      else acc)
    []

/-- Emission for one pixel bucket of a Good segment: below tolerance all
indices except the segment boundaries; above it every sample_rate-th entry of
the group (again except the boundaries). -/
def emitBucket (tolerance : ℚ) (start_idx end_idx : ℕ) (indices : List ℕ) : List ℕ :=
  let count : ℚ := indices.length
  if count ≤ tolerance then
    indices.filter (fun idx => idx ≠ start_idx ∧ idx ≠ end_idx - 1)
  else
    let sample_rate := ceilAsUsize (count / tolerance)
    (indices.enum.filter
        (fun p => p.1 % sample_rate = 0 ∧ p.2 ≠ start_idx ∧ p.2 ≠ end_idx - 1)).map
      Prod.snd

/-- Iterate the pixel buckets of one segment in the given order, skipping the
pixels already seen globally and marking the new ones as seen. -/
def processPixelBuckets (tolerance : ℚ) (start_idx end_idx : ℕ) :
    List (Pixel × List ℕ) → Finset Pixel → List ℕ × Finset Pixel
  | [], seen => ([], seen)
  | (p, indices) :: rest, seen =>
    if p ∈ seen then processPixelBuckets tolerance start_idx end_idx rest seen
    else
      let out := emitBucket tolerance start_idx end_idx indices
      let r := processPixelBuckets tolerance start_idx end_idx rest (insert p seen)
      (out ++ r.1, r.2)

/-- Per-segment work of collect_visible_indices: the pushes of one segment and
the updated seen-pixels set. The order parameter supplies the unspecified
iteration order of the pixel_counts HashMap; it is required (in the theorems)
to be a permutation of the canonical insertion order. -/
def collectSegment (order : List (Pixel × List ℕ) → List (Pixel × List ℕ))
    (events : List MouseMoveEvent) (render_width render_height : ℚ)
    (x_range y_range : ℚ × ℚ) (tolerance : ℚ) (seen : Finset Pixel) :
    Segment → List ℕ × Finset Pixel
  | Segment.Discrete idx =>
    if idx < events.length ∧ is_visible x_range (evAt events idx) then ([idx], seen)
    else ([], seen)
  | Segment.Good start_idx end_idx _ =>
    if events.length ≤ start_idx ∨ events.length < end_idx then ([], seen)
    else
      let seg_range := List.range' start_idx (end_idx - start_idx)
      if ¬ seg_range.any (fun i => is_visible x_range (evAt events i)) then ([], seen)
      else
        let boundary :=
          (if is_visible x_range (evAt events start_idx) then [start_idx] else []) ++
          (if 1 < end_idx - start_idx ∧ is_visible x_range (evAt events (end_idx - 1)) then
            [end_idx - 1] else [])
        let r := processPixelBuckets tolerance start_idx end_idx
          (order (pixelGroups events render_width render_height x_range y_range
            start_idx end_idx))
          seen
        (boundary ++ r.1, r.2)

/-- Segment loop of collect_visible_indices: concatenated pushes, threading the
global seen-pixels set. -/
def collectLoop (order : List (Pixel × List ℕ) → List (Pixel × List ℕ))
    (events : List MouseMoveEvent) (render_width render_height : ℚ)
    (x_range y_range : ℚ × ℚ) (tolerance : ℚ) :
    List Segment → Finset Pixel → List ℕ
  | [], _ => []
  | seg :: rest, seen =>
    let r := collectSegment order events render_width render_height x_range y_range
      tolerance seen seg
    r.1 ++ collectLoop order events render_width render_height x_range y_range tolerance
      rest r.2

/-- collect_visible_indices with an explicit HashMap iteration order. The final
sort is Vec::sort_unstable (sorting ℕ, so stability is irrelevant) followed by
Vec::dedup. -/
def collectVisibleIndicesWith (order : List (Pixel × List ℕ) → List (Pixel × List ℕ))
    (segments : List Segment) (events : List MouseMoveEvent)
    (render_width render_height : ℚ) (x_range y_range : ℚ × ℚ)
    (tolerance zoom_factor : ℚ) : List ℕ :=
  if events = [] ∨ segments = [] then []
  else
    dedupConsecutive
      ((collectLoop order events render_width render_height x_range y_range tolerance
          segments ∅).insertionSort (· ≤ ·))

/-- collect_visible_indices from src/src/lod.rs, with the canonical iteration
order. The zoom_factor parameter is accepted and ignored, exactly as in the
source (the comment there says the caller is expected to have extended x_range
already). -/
def collect_visible_indices (segments : List Segment) (events : List MouseMoveEvent)
    (render_width render_height : ℚ) (x_range y_range : ℚ × ℚ)
    (tolerance zoom_factor : ℚ) : List ℕ :=
  collectVisibleIndicesWith (fun l => l) segments events render_width render_height
    x_range y_range tolerance zoom_factor

/-! gui.rs and main.rs: the bucketed-extrema resolver -/

namespace Gui

/-- MouseMoveEvent of the binary crate (src/src/main.rs): time is stored
directly as an f64. -/
structure MouseMoveEvent where
  dx : ℤ
  dy : ℤ
  time : ℚ
  deriving DecidableEq, Repr

/-- PlotBounds from src/src/gui.rs. -/
structure PlotBounds where
  x_min : ℚ
  x_max : ℚ
  y_min : ℚ
  y_max : ℚ
  deriving DecidableEq, Repr

/-- The LOD-related mutable fields of MouseAnalyzerGui that apply_lod_indices
reads or writes. -/
structure LodState where
  cached_lod_indices : List ℕ
  lod_pyramid : List (List ℕ)
  last_target_points : Option ℕ
  last_events_len : ℕ
  deriving DecidableEq, Repr

/-- Indexing events.get(i) on the binary-crate event type; all call sites are
bounds-guarded, the default only makes the model total. -/
def evAt (events : List MouseMoveEvent) (i : ℕ) : MouseMoveEvent :=
  events.getD i ⟨0, 0, 0⟩

/-- Target point budget of apply_lod_indices: two points per pixel, cast to
usize. -/
def target_points (visible_width : ℚ) : ℕ := f64AsUsize (visible_width * 2)

/-- Extended lower view edge: x_min minus the 8-pixel margin in time units. -/
def marginLo (bounds : PlotBounds) (visible_width : ℚ) : ℚ :=
  let time_range := bounds.x_max - bounds.x_min
  bounds.x_min - (if 0 < time_range then 8 / visible_width * time_range else 0)

/-- Extended upper view edge: x_max plus the 8-pixel margin in time units. -/
def marginHi (bounds : PlotBounds) (visible_width : ℚ) : ℚ :=
  let time_range := bounds.x_max - bounds.x_min
  bounds.x_max + (if 0 < time_range then 8 / visible_width * time_range else 0)

/-- Binary search for the visible slice [start_idx, end_idx) of the events,
with the 8-pixel margin applied when bounds are present. -/
def visibleSlice (events : List MouseMoveEvent) (visible_width : ℚ)
    (plot_bounds : Option PlotBounds) : ℕ × ℕ :=
  match plot_bounds with
  | some bounds =>
    (partitionPoint (fun e => decide (e.time < marginLo bounds visible_width)) events
        ⟨0, 0, 0⟩,
      partitionPoint (fun e => decide (e.time ≤ marginHi bounds visible_width)) events
        ⟨0, 0, 0⟩)
  | none => (0, events.length)

/-- Minimum-dx index of a bucket: fold with strict comparison, first index wins
ties. -/
def minDxIdx (events : List MouseMoveEvent) (bucket_start bucket_end : ℕ) : ℕ :=
  (List.range' bucket_start (bucket_end - bucket_start)).foldl
    (fun m idx => if (evAt events idx).dx < (evAt events m).dx then idx else m)
    bucket_start

/-- Maximum-dx index of a bucket. -/
def maxDxIdx (events : List MouseMoveEvent) (bucket_start bucket_end : ℕ) : ℕ :=
  (List.range' bucket_start (bucket_end - bucket_start)).foldl
    (fun m idx => if (evAt events m).dx < (evAt events idx).dx then idx else m)
    bucket_start

/-- Minimum-dy index of a bucket. -/
def minDyIdx (events : List MouseMoveEvent) (bucket_start bucket_end : ℕ) : ℕ :=
  (List.range' bucket_start (bucket_end - bucket_start)).foldl
    (fun m idx => if (evAt events idx).dy < (evAt events m).dy then idx else m)
    bucket_start

/-- Maximum-dy index of a bucket. -/
def maxDyIdx (events : List MouseMoveEvent) (bucket_start bucket_end : ℕ) : ℕ :=
  (List.range' bucket_start (bucket_end - bucket_start)).foldl
    (fun m idx => if (evAt events m).dy < (evAt events idx).dy then idx else m)
    bucket_start

/-- Candidate indices of one bucket, in source order: first, last, argmin dx,
argmax dx, argmin dy, argmax dy. -/
def bucketCandidates (events : List MouseMoveEvent) (bucket_start bucket_end : ℕ) :
    List ℕ :=
  [bucket_start, bucket_end - 1,
   minDxIdx events bucket_start bucket_end, maxDxIdx events bucket_start bucket_end,
   minDyIdx events bucket_start bucket_end, maxDyIdx events bucket_start bucket_end]

/-- Push a candidate unless an index with the same time bit-pattern was already
pushed (to_bits deduplication, modelled by the rational time value). -/
def pushCandidate (events : List MouseMoveEvent) (acc : List ℕ × Finset ℚ) (idx : ℕ) :
    List ℕ × Finset ℚ :=
  let time_bits := (evAt events idx).time
  if time_bits ∈ acc.2 then acc else (acc.1 ++ [idx], insert time_bits acc.2)

/-- Bucket-selection loop of the full LOD pass: fold over the bucket starts,
pushing the candidates of each bucket with time deduplication. -/
def lodSelect (events : List MouseMoveEvent) (start_idx end_idx bucket_size : ℕ) :
    List ℕ × Finset ℚ :=
  (stepBy bucket_size (List.range' start_idx (end_idx - start_idx))).foldl
    (fun acc bucket_start =>
      let bucket_end := min (bucket_start + bucket_size) end_idx
      if bucket_end ≤ bucket_start then acc
      else (bucketCandidates events bucket_start bucket_end).foldl
        (pushCandidate events) acc)
    ([], ∅)

/-- The full LOD pass of apply_lod_indices: bucket the visible slice, collect
the trend-preserving candidates of each bucket with time deduplication, and
sort the result ascending. -/
def lodFullPass (events : List MouseMoveEvent) (start_idx end_idx bucket_size : ℕ) :
    List ℕ :=
  (lodSelect events start_idx end_idx bucket_size).1.insertionSort (· ≤ ·)

/-- Body of apply_lod_indices after the cache-invalidation block (so here
st.last_events_len already equals events.length). -/
def applyLodCore (st : LodState) (events : List MouseMoveEvent)
    (visible_width : ℚ) (plot_bounds : Option PlotBounds) : List ℕ × LodState :=
  let tgt := target_points visible_width
  let se := visibleSlice events visible_width plot_bounds
  let start_idx := se.1
  let end_idx := se.2
  let visible_count := end_idx - start_idx
  if visible_count = 0 then ([], st)
  else if visible_count ≤ tgt then (List.range' start_idx visible_count, st)
  else
    match st.last_target_points with
    | some last_target =>
      if tgt < last_target ∧ st.cached_lod_indices ≠ [] then
        let step := max (st.cached_lod_indices.length / max tgt 1) 1
        let coarsened := stepBy step st.cached_lod_indices
        (coarsened, { st with last_target_points := some tgt })
      else
        let bucket_size := max (visible_count / max tgt 1) 1
        let selected := lodFullPass events start_idx end_idx bucket_size
        (selected, { st with cached_lod_indices := selected,
                             last_target_points := some tgt })
    | none =>
      let bucket_size := max (visible_count / max tgt 1) 1
      let selected := lodFullPass events start_idx end_idx bucket_size
      (selected, { st with cached_lod_indices := selected,
                           last_target_points := some tgt })

/-- apply_lod_indices from src/src/gui.rs: returns the visible indices and the
updated LOD state (the mutations of self). -/
def apply_lod_indices (st : LodState) (events : List MouseMoveEvent)
    (visible_width : ℚ) (plot_bounds : Option PlotBounds) : List ℕ × LodState :=
  if events = [] then ([], st)
  else
    applyLodCore
      (if events.length ≠ st.last_events_len then
        { cached_lod_indices := [], lod_pyramid := [], last_target_points := none,
          last_events_len := events.length }
      else st)
      events visible_width plot_bounds

end Gui

namespace Gui

/-- Adaptive point budget as the spec words it (section 4.4.1 step 2, with
P_MIN = 1.0 and P_MAX = 3.0): written from the specification for comparison
with the source, which uses a fixed two points per pixel instead. -/
def targetPointsSpec (visible_count : ℕ) (visible_width : ℚ) : ℕ :=
  let density : ℚ := (visible_count : ℚ) / visible_width
  let ppp : ℚ :=
    if density > 3 then 1
    else if density < 1 then density
    else 1 + (3 - density) / (3 - 1) * (3 - 1)
  min visible_count (ceilAsUsize (visible_width * ppp))

/-- The resolver as the spec describes it: identical to apply_lod_indices
except that the target budget is the adaptive density-based one. Written from
the specification for comparison with the source. -/
def apply_lod_indices_adaptiveBudget (st : LodState) (events : List MouseMoveEvent)
    (visible_width : ℚ) (plot_bounds : Option PlotBounds) : List ℕ × LodState :=
  if events = [] then ([], st)
  else
    let st :=
      if events.length ≠ st.last_events_len then
        { cached_lod_indices := [], lod_pyramid := [], last_target_points := none,
          last_events_len := events.length }
      else st
    let se := visibleSlice events visible_width plot_bounds
    let start_idx := se.1
    let end_idx := se.2
    let visible_count := end_idx - start_idx
    let tgt := targetPointsSpec visible_count visible_width
    if visible_count = 0 then ([], st)
    else if visible_count ≤ tgt then (List.range' start_idx visible_count, st)
    else
      match st.last_target_points with
      | some last_target =>
        if tgt < last_target ∧ st.cached_lod_indices ≠ [] then
          let step := max (st.cached_lod_indices.length / max tgt 1) 1
          let coarsened := stepBy step st.cached_lod_indices
          (coarsened, { st with last_target_points := some tgt })
        else
          let bucket_size := max (visible_count / max tgt 1) 1
          let selected := lodFullPass events start_idx end_idx bucket_size
          (selected, { st with cached_lod_indices := selected,
                               last_target_points := some tgt })
      | none =>
        let bucket_size := max (visible_count / max tgt 1) 1
        let selected := lodFullPass events start_idx end_idx bucket_size
        (selected, { st with cached_lod_indices := selected,
                             last_target_points := some tgt })

/-- Invariant of the LOD cache state between calls: cached indices are strictly
increasing and in bounds for the events length they were computed against.
It holds for the initial state and is preserved by apply_lod_indices. -/
@[reducible] def LodStateInv (st : LodState) : Prop :=
  st.cached_lod_indices.Sorted (· < ·) ∧
    ∀ i ∈ st.cached_lod_indices, i < st.last_events_len

/-- The exact dynamic condition under which a call of apply_lod_indices takes
the coarsen-from-previous fast path: nonempty events, no cache invalidation
(same length), a nonempty visible slice that exceeds the target budget, and a
previous target larger than the current one together with a nonempty cached
index list. -/
def takesFastPath (st : LodState) (events : List MouseMoveEvent)
    (visible_width : ℚ) (plot_bounds : Option PlotBounds) : Prop :=
  events ≠ [] ∧
  (visibleSlice events visible_width plot_bounds).2 -
      (visibleSlice events visible_width plot_bounds).1 ≠ 0 ∧
  ¬ ((visibleSlice events visible_width plot_bounds).2 -
      (visibleSlice events visible_width plot_bounds).1 ≤
      target_points visible_width) ∧
  events.length = st.last_events_len ∧
  ∃ last_t, st.last_target_points = some last_t ∧
    target_points visible_width < last_t ∧ st.cached_lod_indices ≠ []

end Gui

/-! Helper lemmas about the list plumbing. -/

theorem mem_dedupConsecutive : ∀ (l : List ℕ) (x : ℕ), x ∈ dedupConsecutive l ↔ x ∈ l := by
  intro l
  induction l with
  | nil => simp [dedupConsecutive]
  | cons a tl ih =>
    cases tl with
    | nil => simp [dedupConsecutive]
    | cons b rest =>
      intro x
      by_cases h : a = b
      · subst h
        rw [dedupConsecutive, if_pos rfl, ih]
        simp only [List.mem_cons]
        tauto
      · rw [dedupConsecutive, if_neg h]
        simp only [List.mem_cons, ih]

theorem sorted_lt_dedupConsecutive :
    ∀ l : List ℕ, l.Sorted (· ≤ ·) → (dedupConsecutive l).Sorted (· < ·) := by
  intro l
  induction l with
  | nil => intro _; simp [dedupConsecutive]
  | cons a tl ih =>
    cases tl with
    | nil => intro _; simp [dedupConsecutive]
    | cons b rest =>
      intro hs
      have hs' : (b :: rest).Sorted (· ≤ ·) := hs.of_cons
      have hab : ∀ y ∈ b :: rest, a ≤ y := (List.sorted_cons.mp hs).1
      by_cases h : a = b
      · simpa [dedupConsecutive, h] using ih hs'
      · rw [dedupConsecutive, if_neg h]
        rw [List.sorted_cons]
        refine ⟨?_, ih hs'⟩
        intro y hy
        have hy' : y ∈ b :: rest := (mem_dedupConsecutive _ y).mp hy
        have hb : a < b := lt_of_le_of_ne (hab b (by simp)) h
        rcases List.mem_cons.mp hy' with h1 | h1
        · exact h1 ▸ hb
        · exact lt_of_lt_of_le hb ((List.sorted_cons.mp hs').1 y h1)

theorem sorted_lt_of_sorted_le_nodup {l : List ℕ}
    (hs : l.Sorted (· ≤ ·)) (hn : l.Nodup) : l.Sorted (· < ·) :=
  (hs.and hn).imp (fun h => lt_of_le_of_ne h.1 h.2)

theorem stepBy_sublist (k : ℕ) (l : List α) : (stepBy k l).Sublist l := by
  have h1 : (l.enum.filter (fun p => p.1 % k = 0)).Sublist l.enum := List.filter_sublist _
  have h2 := h1.map Prod.snd
  rwa [List.enum_map_snd] at h2

theorem binarySearchLoop_le {pred : α → Bool} {l : List α} {dflt : α} :
    ∀ (fuel left right : ℕ), left ≤ right →
      binarySearchLoop pred l dflt fuel left right ≤ right := by
  intro fuel
  induction fuel with
  | zero => intro left right h; simpa [binarySearchLoop] using h
  | succ fuel ih =>
    intro left right h
    rw [binarySearchLoop]
    by_cases hlr : left < right
    · rw [if_pos hlr]
      have hmid : left + (right - left) / 2 < right := by omega
      by_cases hp : pred (l.getD (left + (right - left) / 2) dflt) = true
      · rw [if_pos hp]
        exact ih _ _ (by omega)
      · rw [if_neg hp]
        exact le_trans (ih left (left + (right - left) / 2) (by omega)) (le_of_lt hmid)
    · rw [if_neg hlr]; exact h

theorem partitionPoint_le_length {pred : α → Bool} {l : List α} {dflt : α} :
    partitionPoint pred l dflt ≤ l.length :=
  binarySearchLoop_le _ 0 l.length (Nat.zero_le _)

theorem binarySearchLoop_spec {pred : α → Bool} {l : List α} {dflt : α}
    (hmono : ∀ i j, i ≤ j → j < l.length →
      pred (l.getD j dflt) = true → pred (l.getD i dflt) = true) :
    ∀ (fuel left right : ℕ), right ≤ l.length → left ≤ right → right - left < fuel →
      (∀ i, i < left → pred (l.getD i dflt) = true) →
      (∀ i, right ≤ i → i < l.length → pred (l.getD i dflt) = false) →
      (∀ i, i < binarySearchLoop pred l dflt fuel left right →
        pred (l.getD i dflt) = true) ∧
      (∀ i, binarySearchLoop pred l dflt fuel left right ≤ i → i < l.length →
        pred (l.getD i dflt) = false) := by
  intro fuel
  induction fuel with
  | zero => intro left right _ _ h; omega
  | succ fuel ih =>
    intro left right hrl hlr hfuel hlo hhi
    rw [binarySearchLoop]
    by_cases hc : left < right
    · rw [if_pos hc]
      have hmlt : left + (right - left) / 2 < right := by omega
      by_cases hp : pred (l.getD (left + (right - left) / 2) dflt) = true
      · rw [if_pos hp]
        refine ih (left + (right - left) / 2 + 1) right hrl (by omega) (by omega) ?_ hhi
        intro i hi
        exact hmono i (left + (right - left) / 2) (by omega) (by omega) hp
      · rw [if_neg hp]
        refine ih left (left + (right - left) / 2) (by omega) (by omega) (by omega) hlo ?_
        intro i hge hlen
        by_contra hne
        have : pred (l.getD i dflt) = true := by
          cases h : pred (l.getD i dflt) with
          | false => exact absurd h hne
          | true => rfl
        exact hp (hmono (left + (right - left) / 2) i hge hlen this)
    · rw [if_neg hc]
      have : left = right := by omega
      exact ⟨hlo, fun i hge hlen => hhi i (this ▸ hge) hlen⟩

theorem partitionPoint_spec {pred : α → Bool} {l : List α} {dflt : α}
    (hmono : ∀ i j, i ≤ j → j < l.length →
      pred (l.getD j dflt) = true → pred (l.getD i dflt) = true) :
    (∀ i, i < partitionPoint pred l dflt → pred (l.getD i dflt) = true) ∧
    (∀ i, partitionPoint pred l dflt ≤ i → i < l.length →
      pred (l.getD i dflt) = false) :=
  binarySearchLoop_spec hmono (l.length + 1) 0 l.length (le_refl _) (Nat.zero_le _)
    (by omega) (by omega) (by omega)

/-- A fold that at each step keeps either the accumulator or the new element
preserves any predicate holding of the seed and of all elements. -/
theorem foldl_mem_of_choice {l : List ℕ} {init : ℕ} {f : ℕ → ℕ → ℕ}
    (hf : ∀ m idx, f m idx = idx ∨ f m idx = m) {P : ℕ → Prop}
    (h0 : P init) (hl : ∀ x ∈ l, P x) : P (l.foldl f init) := by
  induction l generalizing init with
  | nil => exact h0
  | cons a tl ih =>
    refine ih ?_ (fun x hx => hl x (List.mem_cons_of_mem a hx))
    rcases hf init a with h | h
    · rw [h]; exact hl a (List.mem_cons_self a tl)
    · rw [h]; exact h0

theorem mem_range'_iff {s n m : ℕ} : m ∈ List.range' s n ↔ s ≤ m ∧ m < s + n := by
  rw [List.mem_range']
  constructor
  · rintro ⟨i, hi, rfl⟩; omega
  · intro h; exact ⟨m - s, by omega, by omega⟩

theorem minDxIdx_mem {events : List Gui.MouseMoveEvent} {bs be : ℕ} (h : bs < be) :
    bs ≤ Gui.minDxIdx events bs be ∧ Gui.minDxIdx events bs be < be := by
  unfold Gui.minDxIdx
  refine foldl_mem_of_choice (P := fun m => bs ≤ m ∧ m < be) ?_ ⟨le_refl _, h⟩ ?_
  · intro m idx
    by_cases hc : (Gui.evAt events idx).dx < (Gui.evAt events m).dx
    · left; simp [hc]
    · right; simp [hc]
  · intro x hx
    have := mem_range'_iff.mp hx
    omega

theorem maxDxIdx_mem {events : List Gui.MouseMoveEvent} {bs be : ℕ} (h : bs < be) :
    bs ≤ Gui.maxDxIdx events bs be ∧ Gui.maxDxIdx events bs be < be := by
  unfold Gui.maxDxIdx
  refine foldl_mem_of_choice (P := fun m => bs ≤ m ∧ m < be) ?_ ⟨le_refl _, h⟩ ?_
  · intro m idx
    by_cases hc : (Gui.evAt events m).dx < (Gui.evAt events idx).dx
    · left; simp [hc]
    · right; simp [hc]
  · intro x hx
    have := mem_range'_iff.mp hx
    omega

theorem minDyIdx_mem {events : List Gui.MouseMoveEvent} {bs be : ℕ} (h : bs < be) :
    bs ≤ Gui.minDyIdx events bs be ∧ Gui.minDyIdx events bs be < be := by
  unfold Gui.minDyIdx
  refine foldl_mem_of_choice (P := fun m => bs ≤ m ∧ m < be) ?_ ⟨le_refl _, h⟩ ?_
  · intro m idx
    by_cases hc : (Gui.evAt events idx).dy < (Gui.evAt events m).dy
    · left; simp [hc]
    · right; simp [hc]
  · intro x hx
    have := mem_range'_iff.mp hx
    omega

theorem maxDyIdx_mem {events : List Gui.MouseMoveEvent} {bs be : ℕ} (h : bs < be) :
    bs ≤ Gui.maxDyIdx events bs be ∧ Gui.maxDyIdx events bs be < be := by
  unfold Gui.maxDyIdx
  refine foldl_mem_of_choice (P := fun m => bs ≤ m ∧ m < be) ?_ ⟨le_refl _, h⟩ ?_
  · intro m idx
    by_cases hc : (Gui.evAt events m).dy < (Gui.evAt events idx).dy
    · left; simp [hc]
    · right; simp [hc]
  · intro x hx
    have := mem_range'_iff.mp hx
    omega

theorem bucketCandidates_mem {events : List Gui.MouseMoveEvent} {bs be : ℕ}
    (h : bs < be) :
    ∀ i ∈ Gui.bucketCandidates events bs be, bs ≤ i ∧ i < be := by
  intro i hi
  simp only [Gui.bucketCandidates, List.mem_cons, List.not_mem_nil, or_false] at hi
  rcases hi with rfl | rfl | rfl | rfl | rfl | rfl
  · exact ⟨le_refl _, h⟩
  · omega
  · exact minDxIdx_mem h
  · exact maxDxIdx_mem h
  · exact minDyIdx_mem h
  · exact maxDyIdx_mem h

theorem pushCandidate_preserves {events : List Gui.MouseMoveEvent} {Q : ℕ → Prop}
    (acc : List ℕ × Finset ℚ) (idx : ℕ) (hq : Q idx)
    (h : acc.1.Nodup ∧ (∀ i ∈ acc.1, (Gui.evAt events i).time ∈ acc.2) ∧
      ∀ i ∈ acc.1, Q i) :
    (Gui.pushCandidate events acc idx).1.Nodup ∧
      (∀ i ∈ (Gui.pushCandidate events acc idx).1,
        (Gui.evAt events i).time ∈ (Gui.pushCandidate events acc idx).2) ∧
      ∀ i ∈ (Gui.pushCandidate events acc idx).1, Q i := by
  obtain ⟨hnd, hkey, hQ⟩ := h
  unfold Gui.pushCandidate
  by_cases hk : (Gui.evAt events idx).time ∈ acc.2
  · rw [if_pos hk]; exact ⟨hnd, hkey, hQ⟩
  · rw [if_neg hk]
    dsimp only
    have hnotmem : idx ∉ acc.1 := fun hc => hk (hkey idx hc)
    refine ⟨?_, ?_, ?_⟩
    · rw [List.nodup_append]
      refine ⟨hnd, List.nodup_singleton _, ?_⟩
      intro a ha hb
      rw [List.mem_singleton] at hb
      exact hnotmem (hb ▸ ha)
    · intro i hi
      rcases List.mem_append.mp hi with h1 | h1
      · exact Finset.mem_insert_of_mem (hkey i h1)
      · rw [List.mem_singleton.mp h1]; exact Finset.mem_insert_self _ _
    · intro i hi
      rcases List.mem_append.mp hi with h1 | h1
      · exact hQ i h1
      · rw [List.mem_singleton.mp h1]; exact hq

theorem lodSelect_inv (events : List Gui.MouseMoveEvent) (s e B : ℕ) :
    (Gui.lodSelect events s e B).1.Nodup ∧
      (∀ i ∈ (Gui.lodSelect events s e B).1,
        (Gui.evAt events i).time ∈ (Gui.lodSelect events s e B).2) ∧
      ∀ i ∈ (Gui.lodSelect events s e B).1, s ≤ i ∧ i < e := by
  unfold Gui.lodSelect
  apply List.foldlRecOn (motive := fun acc : List ℕ × Finset ℚ =>
    acc.1.Nodup ∧ (∀ i ∈ acc.1, (Gui.evAt events i).time ∈ acc.2) ∧
      ∀ i ∈ acc.1, s ≤ i ∧ i < e)
  · exact ⟨List.nodup_nil, by simp, by simp⟩
  · intro acc hacc bs hbs
    dsimp only
    by_cases hb : min (bs + B) e ≤ bs
    · rw [if_pos hb]; exact hacc
    · rw [if_neg hb]
      have hbs' : s ≤ bs ∧ bs < e := by
        have := mem_range'_iff.mp ((stepBy_sublist B _).subset hbs)
        omega
      apply List.foldlRecOn (motive := fun acc : List ℕ × Finset ℚ =>
        acc.1.Nodup ∧ (∀ i ∈ acc.1, (Gui.evAt events i).time ∈ acc.2) ∧
          ∀ i ∈ acc.1, s ≤ i ∧ i < e)
      · exact hacc
      · intro acc2 hacc2 idx hidx
        refine pushCandidate_preserves acc2 idx ?_ hacc2
        have h1 := bucketCandidates_mem (by omega) idx hidx
        have hmin : min (bs + B) e ≤ e := min_le_right _ _
        omega

theorem lodFullPass_sorted_lt (events : List Gui.MouseMoveEvent) (s e B : ℕ) :
    (Gui.lodFullPass events s e B).Sorted (· < ·) := by
  unfold Gui.lodFullPass
  exact sorted_lt_of_sorted_le_nodup
    (List.sorted_insertionSort _ _)
    ((List.perm_insertionSort _ _).nodup_iff.mpr (lodSelect_inv events s e B).1)

theorem lodFullPass_mem (events : List Gui.MouseMoveEvent) (s e B : ℕ) :
    ∀ i ∈ Gui.lodFullPass events s e B, s ≤ i ∧ i < e := by
  intro i hi
  exact (lodSelect_inv events s e B).2.2 i ((List.mem_insertionSort _).mp hi)

theorem visibleSlice_le (events : List Gui.MouseMoveEvent) (w : ℚ)
    (b : Option Gui.PlotBounds) :
    (Gui.visibleSlice events w b).1 ≤ events.length ∧
      (Gui.visibleSlice events w b).2 ≤ events.length := by
  cases b with
  | none => exact ⟨Nat.zero_le _, le_refl _⟩
  | some bounds =>
    unfold Gui.visibleSlice
    dsimp only
    exact ⟨partitionPoint_le_length, partitionPoint_le_length⟩

theorem applyLodCore_props (st : Gui.LodState) (events : List Gui.MouseMoveEvent)
    (w : ℚ) (b : Option Gui.PlotBounds)
    (hlen : st.last_events_len = events.length)
    (hsort : st.cached_lod_indices.Sorted (· < ·))
    (hbd : ∀ i ∈ st.cached_lod_indices, i < st.last_events_len) :
    (Gui.applyLodCore st events w b).1.Sorted (· < ·) ∧
      (∀ i ∈ (Gui.applyLodCore st events w b).1, i < events.length) ∧
      Gui.LodStateInv (Gui.applyLodCore st events w b).2 ∧
      (Gui.applyLodCore st events w b).2.last_events_len = events.length := by
  have hse := visibleSlice_le events w b
  unfold Gui.applyLodCore
  dsimp only
  by_cases h0 : (Gui.visibleSlice events w b).2 - (Gui.visibleSlice events w b).1 = 0
  · rw [if_pos h0]
    exact ⟨List.sorted_nil, by simp, ⟨hsort, hbd⟩, hlen⟩
  · rw [if_neg h0]
    by_cases h1 : (Gui.visibleSlice events w b).2 - (Gui.visibleSlice events w b).1 ≤
        Gui.target_points w
    · rw [if_pos h1]
      refine ⟨List.pairwise_lt_range' _ _, ?_, ⟨hsort, hbd⟩, hlen⟩
      intro i hi
      have := mem_range'_iff.mp hi
      omega
    · rw [if_neg h1]
      cases hlt : st.last_target_points with
      | none =>
        dsimp only
        refine ⟨lodFullPass_sorted_lt _ _ _ _, ?_, ⟨lodFullPass_sorted_lt _ _ _ _, ?_⟩, hlen⟩
        · intro i hi
          have := lodFullPass_mem _ _ _ _ i hi
          omega
        · intro i hi
          have := lodFullPass_mem _ _ _ _ i hi
          dsimp only
          omega
      | some last_t =>
        dsimp only
        by_cases hf : Gui.target_points w < last_t ∧ st.cached_lod_indices ≠ []
        · rw [if_pos hf]
          refine ⟨List.Pairwise.sublist (stepBy_sublist _ _) hsort, ?_, ⟨hsort, ?_⟩, hlen⟩
          · intro i hi
            have := hbd i ((stepBy_sublist _ _).subset hi)
            omega
          · intro i hi
            have := hbd i hi
            dsimp only
            omega
        · rw [if_neg hf]
          refine ⟨lodFullPass_sorted_lt _ _ _ _, ?_, ⟨lodFullPass_sorted_lt _ _ _ _, ?_⟩, hlen⟩
          · intro i hi
            have := lodFullPass_mem _ _ _ _ i hi
            omega
          · intro i hi
            have := lodFullPass_mem _ _ _ _ i hi
            dsimp only
            omega

theorem emitBucket_subset {tol : ℚ} {s e : ℕ} {idxs : List ℕ} :
    ∀ i ∈ emitBucket tol s e idxs, i ∈ idxs := by
  intro i hi
  unfold emitBucket at hi
  by_cases hc : (idxs.length : ℚ) ≤ tol
  · rw [if_pos hc] at hi
    exact List.mem_of_mem_filter hi
  · rw [if_neg hc] at hi
    have hsub : ((idxs.enum.filter
        (fun p => p.1 % ceilAsUsize ((idxs.length : ℚ) / tol) = 0 ∧ p.2 ≠ s ∧
          p.2 ≠ e - 1)).map Prod.snd).Sublist idxs := by
      have h1 := (List.filter_sublist (l := idxs.enum)
        (p := fun p => decide (p.1 % ceilAsUsize ((idxs.length : ℚ) / tol) = 0 ∧ p.2 ≠ s ∧
          p.2 ≠ e - 1))).map Prod.snd
      rwa [List.enum_map_snd] at h1
    exact hsub.subset hi

theorem insertGroup_forall {P : ℕ → Prop} :
    ∀ (acc : List (Pixel × List ℕ)) (p : Pixel) (i0 : ℕ),
      (∀ pr ∈ acc, ∀ i ∈ pr.2, P i) → P i0 →
      ∀ pr ∈ insertGroup acc p i0, ∀ i ∈ pr.2, P i := by
  intro acc
  induction acc with
  | nil =>
    intro p i0 _ hi pr hpr i hmem
    simp only [insertGroup, List.mem_singleton] at hpr
    subst hpr
    simp only [List.mem_singleton] at hmem
    exact hmem ▸ hi
  | cons hd tl ih =>
    intro p i0 hacc hi pr hpr i hmem
    rw [insertGroup] at hpr
    by_cases hq : hd.1 = p
    · rw [if_pos hq] at hpr
      rcases List.mem_cons.mp hpr with h1 | h1
      · subst h1
        rcases List.mem_append.mp hmem with h2 | h2
        · exact hacc hd (List.mem_cons_self _ _) i h2
        · rw [List.mem_singleton.mp h2]; exact hi
      · exact hacc pr (List.mem_cons_of_mem _ h1) i hmem
    · rw [if_neg hq] at hpr
      rcases List.mem_cons.mp hpr with h1 | h1
      · subst h1; exact hacc hd (List.mem_cons_self _ _) i hmem
      · exact ih p i0 (fun pr2 hpr2 => hacc pr2 (List.mem_cons_of_mem _ hpr2)) hi pr h1 i hmem

theorem pixelGroups_forall (events : List MouseMoveEvent) (rw rh : ℚ)
    (xr yr : ℚ × ℚ) (s e : ℕ) :
    ∀ pr ∈ pixelGroups events rw rh xr yr s e, ∀ i ∈ pr.2,
      i ∈ List.range' s (e - s) ∧ is_visible xr (evAt events i) = true := by
  unfold pixelGroups
  apply List.foldlRecOn (motive := fun acc : List (Pixel × List ℕ) =>
    ∀ pr ∈ acc, ∀ i ∈ pr.2,
      i ∈ List.range' s (e - s) ∧ is_visible xr (evAt events i) = true)
  · simp
  · intro acc hacc j hj
    dsimp only
    by_cases hv : is_visible xr (evAt events j) = true
    · rw [if_pos hv]
      exact insertGroup_forall acc _ j hacc ⟨hj, hv⟩
    · rw [if_neg hv]
      exact hacc

theorem processPixelBuckets_out {tol : ℚ} {s e : ℕ} :
    ∀ (l : List (Pixel × List ℕ)) (seen : Finset Pixel),
      ∀ i ∈ (processPixelBuckets tol s e l seen).1, ∃ pr ∈ l, i ∈ pr.2 := by
  intro l
  induction l with
  | nil => intro seen i hi; simp [processPixelBuckets] at hi
  | cons hd tl ih =>
    intro seen i hi
    rw [processPixelBuckets] at hi
    by_cases hb : hd.1 ∈ seen
    · rw [if_pos hb] at hi
      obtain ⟨pr, hpr, hmem⟩ := ih seen i hi
      exact ⟨pr, List.mem_cons_of_mem _ hpr, hmem⟩
    · rw [if_neg hb] at hi
      dsimp only at hi
      rcases List.mem_append.mp hi with h1 | h1
      · exact ⟨hd, List.mem_cons_self _ _, emitBucket_subset i h1⟩
      · obtain ⟨pr, hpr, hmem⟩ := ih (insert hd.1 seen) i h1
        exact ⟨pr, List.mem_cons_of_mem _ hpr, hmem⟩

theorem collectSegment_out {order : List (Pixel × List ℕ) → List (Pixel × List ℕ)}
    (horder : ∀ l, (order l).Perm l)
    (events : List MouseMoveEvent) (rw rh : ℚ) (xr yr : ℚ × ℚ) (tol : ℚ)
    (seen : Finset Pixel) (seg : Segment) :
    ∀ i ∈ (collectSegment order events rw rh xr yr tol seen seg).1,
      i < events.length ∧ is_visible xr (evAt events i) = true := by
  intro i hi
  cases seg with
  | Discrete idx =>
    unfold collectSegment at hi
    dsimp only at hi
    by_cases hc : idx < events.length ∧ is_visible xr (evAt events idx) = true
    · rw [if_pos hc] at hi
      rw [List.mem_singleton.mp hi]
      exact hc
    · rw [if_neg hc] at hi
      simp at hi
  | Good s e fit =>
    unfold collectSegment at hi
    dsimp only at hi
    by_cases hg : events.length ≤ s ∨ events.length < e
    · rw [if_pos hg] at hi; simp at hi
    · rw [if_neg hg] at hi
      push_neg at hg
      by_cases hv : ¬ (List.range' s (e - s)).any
          (fun j => is_visible xr (evAt events j))
      · rw [if_pos hv] at hi; simp at hi
      · rw [if_neg hv] at hi
        dsimp only at hi
        rcases List.mem_append.mp hi with h1 | h1
        · rcases List.mem_append.mp h1 with h2 | h2
          · by_cases hvs : is_visible xr (evAt events s) = true
            · rw [if_pos hvs] at h2
              rw [List.mem_singleton.mp h2]
              exact ⟨by omega, hvs⟩
            · rw [if_neg hvs] at h2; simp at h2
          · by_cases hve : 1 < e - s ∧ is_visible xr (evAt events (e - 1)) = true
            · rw [if_pos hve] at h2
              rw [List.mem_singleton.mp h2]
              exact ⟨by omega, hve.2⟩
            · rw [if_neg hve] at h2; simp at h2
        · obtain ⟨pr, hpr, hmem⟩ := processPixelBuckets_out _ _ i h1
          have hpr' : pr ∈ pixelGroups events rw rh xr yr s e :=
            (horder _).subset hpr
          have := pixelGroups_forall events rw rh xr yr s e pr hpr' i hmem
          have hrange := mem_range'_iff.mp this.1
          exact ⟨by omega, this.2⟩

theorem collectLoop_out {order : List (Pixel × List ℕ) → List (Pixel × List ℕ)}
    (horder : ∀ l, (order l).Perm l)
    (events : List MouseMoveEvent) (rw rh : ℚ) (xr yr : ℚ × ℚ) (tol : ℚ) :
    ∀ (segs : List Segment) (seen : Finset Pixel),
      ∀ i ∈ collectLoop order events rw rh xr yr tol segs seen,
        i < events.length ∧ is_visible xr (evAt events i) = true := by
  intro segs
  induction segs with
  | nil => intro seen i hi; simp [collectLoop] at hi
  | cons seg rest ih =>
    intro seen i hi
    rw [collectLoop] at hi
    rcases List.mem_append.mp hi with h1 | h1
    · exact collectSegment_out horder events rw rh xr yr tol seen seg i h1
    · exact ih _ i h1

theorem collectVisibleIndicesWith_out
    {order : List (Pixel × List ℕ) → List (Pixel × List ℕ)}
    (horder : ∀ l, (order l).Perm l)
    (segments : List Segment) (events : List MouseMoveEvent)
    (rw rh : ℚ) (xr yr : ℚ × ℚ) (tol zf : ℚ) :
    ∀ i ∈ collectVisibleIndicesWith order segments events rw rh xr yr tol zf,
      i < events.length ∧ is_visible xr (evAt events i) = true := by
  intro i hi
  unfold collectVisibleIndicesWith at hi
  by_cases hc : events = [] ∨ segments = []
  · rw [if_pos hc] at hi; simp at hi
  · rw [if_neg hc] at hi
    have h1 := (mem_dedupConsecutive _ i).mp hi
    have h2 := (List.mem_insertionSort _).mp h1
    exact collectLoop_out horder events rw rh xr yr tol segments ∅ i h2

theorem collectVisibleIndicesWith_sorted
    (order : List (Pixel × List ℕ) → List (Pixel × List ℕ))
    (segments : List Segment) (events : List MouseMoveEvent)
    (rw rh : ℚ) (xr yr : ℚ × ℚ) (tol zf : ℚ) :
    (collectVisibleIndicesWith order segments events rw rh xr yr tol zf).Sorted
      (· < ·) := by
  unfold collectVisibleIndicesWith
  by_cases hc : events = [] ∨ segments = []
  · rw [if_pos hc]; exact List.sorted_nil
  · rw [if_neg hc]
    exact sorted_lt_dedupConsecutive _ (List.sorted_insertionSort _ _)

theorem apply_lod_indices_props (st : Gui.LodState) (events : List Gui.MouseMoveEvent)
    (w : ℚ) (b : Option Gui.PlotBounds) (hinv : Gui.LodStateInv st) :
    (Gui.apply_lod_indices st events w b).1.Sorted (· < ·) ∧
      (∀ i ∈ (Gui.apply_lod_indices st events w b).1, i < events.length) ∧
      Gui.LodStateInv (Gui.apply_lod_indices st events w b).2 := by
  unfold Gui.apply_lod_indices
  by_cases hev : events = []
  · rw [if_pos hev]
    exact ⟨List.sorted_nil, by simp, hinv⟩
  · rw [if_neg hev]
    by_cases hl : events.length ≠ st.last_events_len
    · rw [if_pos hl]
      have h := applyLodCore_props
        ⟨[], [], none, events.length⟩ events w b rfl List.sorted_nil (by simp)
      exact ⟨h.1, h.2.1, h.2.2.1⟩
    · rw [if_neg hl]
      push_neg at hl
      have h := applyLodCore_props st events w b hl.symm hinv.1 hinv.2
      exact ⟨h.1, h.2.1, h.2.2.1⟩

/-- C1: on all inputs, both resolvers return a strictly increasing index list:
regression mode sorts and dedups at the end, bucketed mode pushes index-unique
candidates (time-bit dedup) and sorts; the coarsen fast path and the
no-downsampling slice keep the cached and range order respectively. The
bucketed half assumes the cache invariant, which holds initially and is
preserved by every call (see c2 theorem). -/
theorem c1_resolver_output_strictly_increasing :
    (∀ (segments : List Segment) (events : List MouseMoveEvent) (rw rh : ℚ)
        (xr yr : ℚ × ℚ) (tol zf : ℚ),
      (collect_visible_indices segments events rw rh xr yr tol zf).Sorted (· < ·)) ∧
    ∀ (st : Gui.LodState) (events : List Gui.MouseMoveEvent) (w : ℚ)
        (b : Option Gui.PlotBounds), Gui.LodStateInv st →
      (Gui.apply_lod_indices st events w b).1.Sorted (· < ·) := by
  constructor
  · intro segments events rw rh xr yr tol zf
    exact collectVisibleIndicesWith_sorted _ segments events rw rh xr yr tol zf
  · intro st events w b hinv
    exact (apply_lod_indices_props st events w b hinv).1

/-- Witness for c1: a concrete call of each resolver, the bucketed one from the
initial (empty-cache) state. -/
theorem c1_witness :
    (collect_visible_indices [Segment.Discrete 0] [⟨1, 2, 0, 0⟩] 100 100 (0, 1) (0, 1)
        3 (3 / 2)).Sorted (· < ·) ∧
      (Gui.apply_lod_indices ⟨[], [], none, 0⟩ [⟨1, 2, 0⟩] 5 none).1.Sorted (· < ·) :=
  ⟨c1_resolver_output_strictly_increasing.1 [Segment.Discrete 0] [⟨1, 2, 0, 0⟩]
      100 100 (0, 1) (0, 1) 3 (3 / 2),
    c1_resolver_output_strictly_increasing.2 ⟨[], [], none, 0⟩ [⟨1, 2, 0⟩] 5 none
      ⟨List.sorted_nil, by simp⟩⟩

/-- C2: every returned index is below the length of the events slice of the
call. Good segments whose recorded range reaches at or beyond the slice length
are skipped entirely by collect_visible_indices, and out-of-range Discrete
indices are dropped; apply_lod_indices clears a cache built for a different
length before using it, so the coarsen fast path also stays in bounds. The
cache invariant is preserved, which is also stated here. -/
theorem c2_resolver_output_in_bounds :
    (∀ (segments : List Segment) (events : List MouseMoveEvent) (rw rh : ℚ)
        (xr yr : ℚ × ℚ) (tol zf : ℚ),
      ∀ i ∈ collect_visible_indices segments events rw rh xr yr tol zf,
        i < events.length) ∧
    ∀ (st : Gui.LodState) (events : List Gui.MouseMoveEvent) (w : ℚ)
        (b : Option Gui.PlotBounds), Gui.LodStateInv st →
      (∀ i ∈ (Gui.apply_lod_indices st events w b).1, i < events.length) ∧
        Gui.LodStateInv (Gui.apply_lod_indices st events w b).2 := by
  constructor
  · intro segments events rw rh xr yr tol zf i hi
    exact (collectVisibleIndicesWith_out (fun l => List.Perm.refl l) segments events
      rw rh xr yr tol zf i hi).1
  · intro st events w b hinv
    exact ⟨(apply_lod_indices_props st events w b hinv).2.1,
      (apply_lod_indices_props st events w b hinv).2.2⟩

/-- Witness for c2: a stale-cache scenario, indices cached for 4 events and the
slice shrunk to 2 events; the fast path is never fed the stale cache because
the length change clears it. -/
theorem c2_witness :
    (∀ i ∈ collect_visible_indices [Segment.Good 0 9 ⟨0, 9, Poly3.zero, Poly3.zero,
        Poly3.zero, 1, 1, 1⟩] [⟨1, 2, 0, 0⟩, ⟨1, 2, 1, 0⟩] 100 100 (0, 5) (0, 5) 3 1,
      i < 2) ∧
      (∀ i ∈ (Gui.apply_lod_indices ⟨[0, 1, 2, 3], [], some 8, 4⟩
          [⟨1, 2, 0⟩, ⟨1, 2, 1⟩] 1 none).1, i < 2) ∧
        Gui.LodStateInv (Gui.apply_lod_indices ⟨[0, 1, 2, 3], [], some 8, 4⟩
          [⟨1, 2, 0⟩, ⟨1, 2, 1⟩] 1 none).2 :=
  ⟨fun i hi => c2_resolver_output_in_bounds.1 _ _ 100 100 (0, 5) (0, 5) 3 1 i hi,
    c2_resolver_output_in_bounds.2 ⟨[0, 1, 2, 3], [], some 8, 4⟩
      [⟨1, 2, 0⟩, ⟨1, 2, 1⟩] 1 none ⟨by decide, by decide⟩⟩

/-- C8: on an empty sample array both resolvers return the empty list (and the
bucketed one leaves its state untouched); being total functions of the model,
they cannot fail. -/
theorem c8_empty_events_empty_output :
    (∀ (segments : List Segment) (rw rh : ℚ) (xr yr : ℚ × ℚ) (tol zf : ℚ),
      collect_visible_indices segments [] rw rh xr yr tol zf = []) ∧
    ∀ (st : Gui.LodState) (w : ℚ) (b : Option Gui.PlotBounds),
      Gui.apply_lod_indices st [] w b = ([], st) := by
  constructor
  · intro segments rw rh xr yr tol zf
    unfold collect_visible_indices collectVisibleIndicesWith
    rw [if_pos (Or.inl rfl)]
  · intro st w b
    unfold Gui.apply_lod_indices
    rw [if_pos rfl]

theorem getD_time_mono {events : List Gui.MouseMoveEvent}
    (hs : events.Pairwise (fun a b => a.time ≤ b.time)) {i j : ℕ} (hij : i ≤ j)
    (hj : j < events.length) :
    (events.getD i ⟨0, 0, 0⟩).time ≤ (events.getD j ⟨0, 0, 0⟩).time := by
  rcases Nat.eq_or_lt_of_le hij with rfl | hlt
  · exact le_refl _
  · have hi : i < events.length := lt_trans hlt hj
    rw [List.getD_eq_getElem?_getD, List.getD_eq_getElem?_getD,
      List.getElem?_eq_getElem hi, List.getElem?_eq_getElem hj]
    simp only [Option.getD_some]
    exact List.pairwise_iff_getElem.mp hs i j hi hj hlt

theorem applyLodCore_mem_slice (st : Gui.LodState) (events : List Gui.MouseMoveEvent)
    (w : ℚ) (b : Option Gui.PlotBounds)
    (hnf : (Gui.visibleSlice events w b).2 - (Gui.visibleSlice events w b).1 ≠ 0 →
      ¬ ((Gui.visibleSlice events w b).2 - (Gui.visibleSlice events w b).1 ≤
        Gui.target_points w) →
      ∀ last_t, st.last_target_points = some last_t →
        ¬ (Gui.target_points w < last_t ∧ st.cached_lod_indices ≠ [])) :
    ∀ i ∈ (Gui.applyLodCore st events w b).1,
      (Gui.visibleSlice events w b).1 ≤ i ∧ i < (Gui.visibleSlice events w b).2 := by
  unfold Gui.applyLodCore
  dsimp only
  by_cases h0 : (Gui.visibleSlice events w b).2 - (Gui.visibleSlice events w b).1 = 0
  · rw [if_pos h0]; simp
  · rw [if_neg h0]
    by_cases h1 : (Gui.visibleSlice events w b).2 - (Gui.visibleSlice events w b).1 ≤
        Gui.target_points w
    · rw [if_pos h1]
      intro i hi
      have := mem_range'_iff.mp hi
      omega
    · rw [if_neg h1]
      cases hlt : st.last_target_points with
      | none =>
        dsimp only
        intro i hi
        exact lodFullPass_mem _ _ _ _ i hi
      | some last_t =>
        dsimp only
        rw [if_neg (hnf h0 h1 last_t hlt)]
        intro i hi
        exact lodFullPass_mem _ _ _ _ i hi

/-- C3 amended: every index returned by collect_visible_indices refers to a
sample whose time lies in the given x-range (the range as passed, the caller
being responsible for any extension), and every call of apply_lod_indices
with bounds that does not take the coarsen-from-previous fast path returns,
for time-sorted events, only indices whose time lies within the
margin-extended bounds; this includes warm-cache calls whose target is not
below the previous one (full pass) and the no-downsampling slice. The fast
path itself violates the range property, see the counterexample. -/
theorem c3_output_times_in_extended_range_amended :
    (∀ (segments : List Segment) (events : List MouseMoveEvent) (rw rh : ℚ)
        (xr yr : ℚ × ℚ) (tol zf : ℚ),
      ∀ i ∈ collect_visible_indices segments events rw rh xr yr tol zf,
        xr.1 ≤ (evAt events i).time_secs ∧ (evAt events i).time_secs ≤ xr.2) ∧
    ∀ (st : Gui.LodState) (events : List Gui.MouseMoveEvent) (w : ℚ)
        (bounds : Gui.PlotBounds),
      events.Pairwise (fun a b => a.time ≤ b.time) →
      ¬ Gui.takesFastPath st events w (some bounds) →
      ∀ i ∈ (Gui.apply_lod_indices st events w (some bounds)).1,
        Gui.marginLo bounds w ≤ (Gui.evAt events i).time ∧
          (Gui.evAt events i).time ≤ Gui.marginHi bounds w := by
  constructor
  · intro segments events rw rh xr yr tol zf i hi
    have h := (collectVisibleIndicesWith_out (fun l => List.Perm.refl l) segments events
      rw rh xr yr tol zf i hi).2
    unfold is_visible at h
    exact of_decide_eq_true h
  · intro st events w bounds hsorted hnf i hi
    unfold Gui.apply_lod_indices at hi
    by_cases hev : events = []
    · rw [if_pos hev] at hi; simp at hi
    · rw [if_neg hev] at hi
      have hcore : ∀ (st1 : Gui.LodState),
          ((Gui.visibleSlice events w (some bounds)).2 -
              (Gui.visibleSlice events w (some bounds)).1 ≠ 0 →
            ¬ ((Gui.visibleSlice events w (some bounds)).2 -
                (Gui.visibleSlice events w (some bounds)).1 ≤ Gui.target_points w) →
            ∀ last_t, st1.last_target_points = some last_t →
              ¬ (Gui.target_points w < last_t ∧ st1.cached_lod_indices ≠ [])) →
          i ∈ (Gui.applyLodCore st1 events w (some bounds)).1 →
          Gui.marginLo bounds w ≤ (Gui.evAt events i).time ∧
            (Gui.evAt events i).time ≤ Gui.marginHi bounds w := by
        intro st1 hnf1 hi1
        have hmem := applyLodCore_mem_slice st1 events w (some bounds) hnf1 i hi1
        have hs_eq : (Gui.visibleSlice events w (some bounds)).1 =
            partitionPoint (fun e => decide (e.time < Gui.marginLo bounds w)) events
              ⟨0, 0, 0⟩ := rfl
        have he_eq : (Gui.visibleSlice events w (some bounds)).2 =
            partitionPoint (fun e => decide (e.time ≤ Gui.marginHi bounds w)) events
              ⟨0, 0, 0⟩ := rfl
        have hlen : i < events.length := by
          have h2 : (Gui.visibleSlice events w (some bounds)).2 ≤ events.length :=
            (visibleSlice_le events w (some bounds)).2
          omega
        have hmono1 : ∀ a b2, a ≤ b2 → b2 < events.length →
            (fun e => decide (e.time < Gui.marginLo bounds w)) (events.getD b2 ⟨0, 0, 0⟩) =
              true →
            (fun e => decide (e.time < Gui.marginLo bounds w)) (events.getD a ⟨0, 0, 0⟩) =
              true := by
          intro a b2 hab hb2 hp
          have := getD_time_mono hsorted hab hb2
          exact decide_eq_true (lt_of_le_of_lt this (of_decide_eq_true hp))
        have hmono2 : ∀ a b2, a ≤ b2 → b2 < events.length →
            (fun e => decide (e.time ≤ Gui.marginHi bounds w)) (events.getD b2 ⟨0, 0, 0⟩) =
              true →
            (fun e => decide (e.time ≤ Gui.marginHi bounds w)) (events.getD a ⟨0, 0, 0⟩) =
              true := by
          intro a b2 hab hb2 hp
          have := getD_time_mono hsorted hab hb2
          exact decide_eq_true (le_trans this (of_decide_eq_true hp))
        constructor
        · have hfalse := (partitionPoint_spec hmono1).2 i (by rw [← hs_eq]; exact hmem.1)
            hlen
          have : ¬ ((events.getD i ⟨0, 0, 0⟩).time < Gui.marginLo bounds w) := by
            intro hc
            have hd := decide_eq_true hc
            rw [hfalse] at hd
            simp at hd
          exact le_of_not_lt this
        · have htrue := (partitionPoint_spec hmono2).1 i (by rw [← he_eq]; exact hmem.2)
          exact of_decide_eq_true htrue
      by_cases hl : events.length ≠ st.last_events_len
      · rw [if_pos hl] at hi
        exact hcore _ (fun _ _ last_t hlt => by simp at hlt) hi
      · rw [if_neg hl] at hi
        refine hcore st ?_ hi
        intro h0 h1 last_t hlt hcond
        push_neg at hl
        exact hnf ⟨hev, h0, h1, hl, last_t, hlt, hcond.1, hcond.2⟩

/-- Events for the fast-path range counterexample: four samples near time 0 and
four samples near time 1000, all with zero motion. -/
def c3Events : List Gui.MouseMoveEvent :=
  [⟨0, 0, 0⟩, ⟨0, 0, 1 / 10⟩, ⟨0, 0, 2 / 10⟩, ⟨0, 0, 3 / 10⟩,
   ⟨0, 0, 1000⟩, ⟨0, 0, 1001⟩, ⟨0, 0, 1002⟩, ⟨0, 0, 1003⟩]

/-- View bounds of the second call of the counterexample. -/
def c3Bounds : Gui.PlotBounds := ⟨0, 3 / 10, 0, 1⟩

/-- Output of the second resolver call: first a full-range call at width 2
fills the cache with all eight indices, then a narrow call at width 1 takes
the coarsen-from-previous fast path. -/
def c3SecondCall : List ℕ :=
  (Gui.apply_lod_indices
    (Gui.apply_lod_indices ⟨[], [], none, 0⟩ c3Events 2 none).2
    c3Events 1 (some c3Bounds)).1

/-- C3 counterexample: the coarsen-from-previous fast path returns index 4,
whose sample time 1000 lies far outside the margin-extended view range
[-12/5, 27/10] of the second call. -/
theorem c3_counterexample_fast_path_escapes_range :
    4 ∈ c3SecondCall ∧
      ¬ (Gui.marginLo c3Bounds 1 ≤ (Gui.evAt c3Events 4).time ∧
        (Gui.evAt c3Events 4).time ≤ Gui.marginHi c3Bounds 1) := by
  decide

/-- Witness for the amended c3 theorem at concrete inputs; the bucketed half
is a warm-cache call (nonempty cached indices, previous target 1 below the
current budget 2) on which the fast path is not taken. -/
theorem c3_amended_witness :
    ((0 : ℚ) ≤ (evAt [⟨0, 0, 1, 0⟩] 0).time_secs ∧
      (evAt [⟨0, 0, 1, 0⟩] 0).time_secs ≤ 2) ∧
    (Gui.marginLo ⟨0, 1, 0, 1⟩ 1 ≤ (Gui.evAt [⟨0, 0, (0 : ℚ)⟩] 0).time ∧
      (Gui.evAt [⟨0, 0, (0 : ℚ)⟩] 0).time ≤ Gui.marginHi ⟨0, 1, 0, 1⟩ 1) :=
  ⟨by
    have h := c3_output_times_in_extended_range_amended.1 [Segment.Discrete 0]
      [⟨0, 0, 1, 0⟩] 100 100 (0, 2) (0, 1) 3 1 0 (by decide)
    exact h,
   by
    have h := c3_output_times_in_extended_range_amended.2 ⟨[0], [], some 1, 1⟩
      [⟨0, 0, (0 : ℚ)⟩] 1 ⟨0, 1, 0, 1⟩ (by decide)
      (fun hf => by
        obtain ⟨t, ht, hlt2, hc⟩ := hf.2.2.2.2
        have ht1 : t = 1 := by simpa using ht.symm
        subst ht1
        exact absurd hlt2 (by decide))
      0 (by decide)
    exact h⟩

/-- Events of the c4 counterexample: forty samples at integer times with zero
motion, viewed at width 10 with no bounds. Density is 4 samples per pixel, so
the adaptive budget of the spec would cap the target at 10 points; the code
uses 20 and, with bucket size 2 and first/last emission per bucket, returns
all forty indices. -/
def c4Events : List Gui.MouseMoveEvent := (List.range 40).map (fun i => ⟨0, 0, (i : ℚ)⟩)

/-- C4 counterexample: the resolver output differs from the output prescribed
by the adaptive density-based budget of the spec, so the resolver does not use
that budget. -/
theorem c4_counterexample_budget_not_adaptive :
    (Gui.apply_lod_indices ⟨[], [], none, 0⟩ c4Events 10 none).1 ≠
      (Gui.apply_lod_indices_adaptiveBudget ⟨[], [], none, 0⟩ c4Events 10 none).1 := by
  set_option maxRecDepth 10000 in decide

/-- C4 amended: the point budget of apply_lod_indices is the fixed two points
per pixel, target_points = floor(visible_width * 2) as usize, with no density
adaptation; whenever the visible count is positive and within that budget the
resolver returns the whole visible slice unchanged. -/
theorem c4_fixed_two_per_pixel_budget :
    (∀ w : ℚ, Gui.target_points w = f64AsUsize (w * 2)) ∧
    ∀ (st : Gui.LodState) (events : List Gui.MouseMoveEvent) (w : ℚ)
        (b : Option Gui.PlotBounds), events ≠ [] →
      0 < (Gui.visibleSlice events w b).2 - (Gui.visibleSlice events w b).1 →
      (Gui.visibleSlice events w b).2 - (Gui.visibleSlice events w b).1 ≤
        Gui.target_points w →
      (Gui.apply_lod_indices st events w b).1 =
        List.range' (Gui.visibleSlice events w b).1
          ((Gui.visibleSlice events w b).2 - (Gui.visibleSlice events w b).1) := by
  constructor
  · intro w; rfl
  · intro st events w b hev h0 h1
    unfold Gui.apply_lod_indices
    rw [if_neg hev]
    unfold Gui.applyLodCore
    dsimp only
    rw [if_neg (by omega), if_pos h1]

/-- Witness for the amended c4 theorem at a concrete input. -/
theorem c4_amended_witness :
    Gui.target_points 5 = f64AsUsize (5 * 2) ∧
      (Gui.apply_lod_indices ⟨[], [], none, 0⟩ [⟨0, 0, (0 : ℚ)⟩] 5 none).1 =
        List.range' 0 1 :=
  ⟨c4_fixed_two_per_pixel_budget.1 5,
    c4_fixed_two_per_pixel_budget.2 ⟨[], [], none, 0⟩ [⟨0, 0, (0 : ℚ)⟩] 5 none
      (by decide) (by decide) (by decide)⟩

/-- C5 counterexample: a single sample at time 2 with view range [0, 1] and
zoom_factor 10. The sample lies inside the enlarged range [0 - 4.5, 1 + 4.5]
of the claim, yet collect_visible_indices returns the empty list: the function
applies no internal range enlargement. -/
theorem c5_counterexample_no_enlargement :
    collect_visible_indices [Segment.Discrete 0] [⟨0, 0, 2, 0⟩] 100 100 (0, 1) (0, 1)
        3 10 = [] ∧
      (0 : ℚ) - (10 - 1) / 2 * (1 - 0) ≤ (evAt [⟨0, 0, 2, 0⟩] 0).time_secs ∧
      (evAt [⟨0, 0, 2, 0⟩] 0).time_secs ≤ 1 + (10 - 1) / 2 * (1 - 0) := by
  decide

/-- C5 amended: collect_visible_indices uses the x-range exactly as given: the
zoom_factor argument has no effect on the result (any intended prefetch
enlargement is left to the caller), and every returned index has its sample
time inside the given [x_min, x_max]. -/
theorem c5_range_used_as_given :
    ∀ (segments : List Segment) (events : List MouseMoveEvent) (rw rh : ℚ)
        (xr yr : ℚ × ℚ) (tol zf zf2 : ℚ),
      collect_visible_indices segments events rw rh xr yr tol zf =
        collect_visible_indices segments events rw rh xr yr tol zf2 ∧
      ∀ i ∈ collect_visible_indices segments events rw rh xr yr tol zf,
        xr.1 ≤ (evAt events i).time_secs ∧ (evAt events i).time_secs ≤ xr.2 := by
  intro segments events rw rh xr yr tol zf zf2
  constructor
  · rfl
  · intro i hi
    have h := (collectVisibleIndicesWith_out (fun l => List.Perm.refl l) segments events
      rw rh xr yr tol zf i hi).2
    unfold is_visible at h
    exact of_decide_eq_true h

/-- Witness for the amended c5 theorem at a concrete input. -/
theorem c5_amended_witness :
    collect_visible_indices [Segment.Discrete 0] [⟨0, 0, 1, 0⟩] 100 100 (0, 2) (0, 1)
        3 1 = collect_visible_indices [Segment.Discrete 0] [⟨0, 0, 1, 0⟩] 100 100
        (0, 2) (0, 1) 3 7 ∧
      (0 : ℚ) ≤ (evAt [⟨0, 0, 1, 0⟩] 0).time_secs ∧
        (evAt [⟨0, 0, 1, 0⟩] 0).time_secs ≤ 2 :=
  ⟨(c5_range_used_as_given [Segment.Discrete 0] [⟨0, 0, 1, 0⟩] 100 100 (0, 2) (0, 1)
      3 1 7).1,
    (c5_range_used_as_given [Segment.Discrete 0] [⟨0, 0, 1, 0⟩] 100 100 (0, 2) (0, 1)
      3 1 7).2 0 (by decide)⟩

theorem analyze_segment_some {f : List ℚ → List ℚ → Option Poly3}
    {events : List MouseMoveEvent} {s e : ℕ} {fit : SegmentFit}
    (h : analyze_segment f events s e = some fit) :
    fit.start_idx = s ∧ fit.end_idx = e ∧ s + 4 ≤ e := by
  unfold analyze_segment at h
  by_cases hn : e - s < 4
  · rw [if_pos hn] at h; exact absurd h (by simp)
  · rw [if_neg hn] at h
    dsimp only at h
    split at h
    · rename_i dx_poly dy_poly time_poly hdx hdy ht
      injection h with h'
      subst h'
      exact ⟨rfl, rfl, by omega⟩
    · exact absurd h (by simp)

theorem segGrow_best_fit (g : ℚ) (st : SegSearchState) (avg : ℚ) :
    (segGrow g st avg).best_fit = st.best_fit := by
  unfold segGrow
  dsimp only
  split <;> rfl

theorem segLoop_invariant (f : List ℚ → List ℚ → Option Poly3) (lnF : ℕ → ℚ)
    (events : List MouseMoveEvent) (pos : ℕ) (g mr bw : ℚ) :
    ∀ (fuel : ℕ) (st : SegSearchState),
      (∀ fit, st.best_fit = some fit →
        fit.start_idx = pos ∧ pos + 4 ≤ fit.end_idx ∧ fit.end_idx ≤ events.length) →
      ∀ fit, segLoop f lnF events pos g mr bw fuel st = some fit →
        fit.start_idx = pos ∧ pos + 4 ≤ fit.end_idx ∧ fit.end_idx ≤ events.length := by
  intro fuel
  induction fuel with
  | zero =>
    intro st hst fit h
    rw [segLoop] at h
    exact hst fit h
  | succ fuel ih =>
    intro st hst fit h
    rw [segLoop] at h
    by_cases hc : pos + st.current_size ≤ events.length
    · rw [if_pos hc] at h
      cases ha : analyze_segment f events pos (pos + st.current_size) with
      | none =>
        rw [ha] at h
        exact hst fit h
      | some fit0 =>
        rw [ha] at h
        obtain ⟨h1, h2, h3⟩ := analyze_segment_some ha
        dsimp only at h
        split at h
        · split at h
          · refine ih _ ?_ fit h
            intro fit' hfit'
            rw [segGrow_best_fit] at hfit'
            dsimp only at hfit'
            injection hfit' with h'
            subst h'
            exact ⟨h1, by omega, by omega⟩
          · refine ih _ ?_ fit h
            intro fit' hfit'
            rw [segGrow_best_fit] at hfit'
            exact hst fit' hfit'
        · split at h
          · split at h
            · exact hst fit h
            · refine ih _ ?_ fit h
              intro fit' hfit'
              rw [segGrow_best_fit] at hfit'
              exact hst fit' hfit'
          · split at h
            · exact hst fit h
            · refine ih _ ?_ fit h
              intro fit' hfit'
              rw [segGrow_best_fit] at hfit'
              exact hst fit' hfit'
    · rw [if_neg hc] at h
      exact hst fit h

theorem buildLoop_flatten (f : List ℚ → List ℚ → Option Poly3) (lnF : ℕ → ℚ)
    (events : List MouseMoveEvent) (init : ℕ) (g mr bw : ℚ) :
    ∀ (fuel pos : ℕ), events.length - pos < fuel →
      ((buildLoop f lnF events init g mr bw fuel pos).map segIndices).flatten =
        List.range' pos (events.length - pos) := by
  intro fuel
  induction fuel with
  | zero => intro pos h; omega
  | succ fuel ih =>
    intro pos hf
    rw [buildLoop]
    by_cases hp : pos < events.length
    · rw [if_pos hp]
      cases hsl : segLoop f lnF events pos g mr bw (events.length + 1)
          ⟨none, ⊥, ⊥, init, 0⟩ with
      | some fit =>
        obtain ⟨h1, h2, h3⟩ := segLoop_invariant f lnF events pos g mr bw
          (events.length + 1) ⟨none, ⊥, ⊥, init, 0⟩
          (fun fit0 hfit0 => absurd hfit0 (by simp)) fit hsl
        rw [List.map_cons, List.flatten_cons]
        have hrec := ih (pos + (fit.end_idx - fit.start_idx)) (by omega)
        rw [hrec, h1]
        have hpe : pos + (fit.end_idx - pos) = fit.end_idx := by omega
        rw [hpe]
        have happ := List.range'_append_1 pos (fit.end_idx - pos)
          (events.length - fit.end_idx)
        rw [hpe] at happ
        have hsum : events.length - fit.end_idx + (fit.end_idx - pos) =
            events.length - pos := by omega
        rw [hsum] at happ
        rw [segIndices]
        exact happ
      | none =>
        rw [List.map_cons, List.flatten_cons]
        have hrec := ih (pos + 1) (by omega)
        rw [hrec]
        rw [show events.length - pos = (events.length - (pos + 1)) + 1 from by omega,
          List.range'_succ]
        rfl
    · rw [if_neg hp]
      rw [show events.length - pos = 0 from by omega]
      simp

/-- C6: the segments built by build_segments cover [0, n) exactly and in
order: concatenating the index ranges of the returned segments, in list order,
gives exactly 0, 1, ..., n-1. This holds for every possible outcome of the
floating-point fit solver and log function (quantified as parameters), so no
gaps, no overlaps, and ascending segment order. -/
theorem c6_build_segments_partition :
    ∀ (fit_cubic : List ℚ → List ℚ → Option Poly3) (lnF : ℕ → ℚ)
        (events : List MouseMoveEvent) (initial_size : ℕ)
        (growth_factor min_r_squared balance_weight : ℚ),
      ((build_segments fit_cubic lnF events initial_size growth_factor min_r_squared
          balance_weight).map segIndices).flatten = List.range events.length := by
  intro f lnF events init g mr bw
  unfold build_segments
  by_cases hev : events = []
  · rw [if_pos hev]; subst hev; simp
  · rw [if_neg hev, List.range_eq_range']
    have h := buildLoop_flatten f lnF events init g mr bw (events.length + 1) 0
      (by omega)
    simpa using h

theorem segLoop_small_none (f : List ℚ → List ℚ → Option Poly3) (lnF : ℕ → ℚ)
    (events : List MouseMoveEvent) (pos : ℕ) (g mr bw : ℚ) (init : ℕ)
    (hinit : init < 4) :
    ∀ fuel, segLoop f lnF events pos g mr bw fuel ⟨none, ⊥, ⊥, init, 0⟩ = none := by
  intro fuel
  cases fuel with
  | zero => rw [segLoop]
  | succ fuel =>
    rw [segLoop]
    dsimp only
    by_cases hc : pos + init ≤ events.length
    · rw [if_pos hc]
      have ha : analyze_segment f events pos (pos + init) = none := by
        unfold analyze_segment
        rw [if_pos (by omega)]
      rw [ha]
    · rw [if_neg hc]

theorem buildLoop_small (f : List ℚ → List ℚ → Option Poly3) (lnF : ℕ → ℚ)
    (events : List MouseMoveEvent) (init : ℕ) (g mr bw : ℚ) (hinit : init < 4) :
    ∀ (fuel pos : ℕ), events.length - pos < fuel →
      buildLoop f lnF events init g mr bw fuel pos =
        (List.range' pos (events.length - pos)).map Segment.Discrete := by
  intro fuel
  induction fuel with
  | zero => intro pos h; omega
  | succ fuel ih =>
    intro pos hf
    rw [buildLoop]
    by_cases hp : pos < events.length
    · rw [if_pos hp, segLoop_small_none f lnF events pos g mr bw init hinit]
      rw [ih (pos + 1) (by omega)]
      rw [show events.length - pos = (events.length - (pos + 1)) + 1 from by omega,
        List.range'_succ, List.map_cons]
    · rw [if_neg hp]
      rw [show events.length - pos = 0 from by omega]
      simp

/-- C10: with initial_size below 4 the first candidate window of every
position is rejected by analyze_segment (fewer than 4 points) and the size
search ends immediately, so build_segments marks every sample Discrete, in
index order; no Good segment can appear. -/
theorem c10_small_initial_size_all_discrete :
    ∀ (fit_cubic : List ℚ → List ℚ → Option Poly3) (lnF : ℕ → ℚ)
        (events : List MouseMoveEvent) (initial_size : ℕ)
        (growth_factor min_r_squared balance_weight : ℚ),
      initial_size < 4 →
      build_segments fit_cubic lnF events initial_size growth_factor min_r_squared
          balance_weight = (List.range events.length).map Segment.Discrete := by
  intro f lnF events init g mr bw hinit
  unfold build_segments
  by_cases hev : events = []
  · rw [if_pos hev]; subst hev; simp
  · rw [if_neg hev, List.range_eq_range']
    have h := buildLoop_small f lnF events init g mr bw hinit (events.length + 1) 0
      (by omega)
    simpa using h

/-- Witness for c10: three-sample input with initial_size 3 yields exactly the
three Discrete segments. -/
theorem c10_witness :
    3 < 4 ∧
      build_segments (fun _ _ => none) (fun _ => 0)
          [⟨0, 0, 0, 0⟩, ⟨1, 1, 1, 0⟩, ⟨2, 2, 2, 0⟩] 3 2 (4 / 5) (1 / 2) =
        (List.range 3).map Segment.Discrete :=
  ⟨by decide,
    c10_small_initial_size_all_discrete (fun _ _ => none) (fun _ => 0)
      [⟨0, 0, 0, 0⟩, ⟨1, 1, 1, 0⟩, ⟨2, 2, 2, 0⟩] 3 2 (4 / 5) (1 / 2) (by decide)⟩

theorem collectSegment_boundary {order : List (Pixel × List ℕ) → List (Pixel × List ℕ)}
    (events : List MouseMoveEvent) (rw rh : ℚ) (xr yr : ℚ × ℚ) (tol : ℚ)
    (seen : Finset Pixel) (s e : ℕ) (fit : SegmentFit)
    (hse : s < e) (hlen : e ≤ events.length)
    (hvis : ∃ j ∈ List.range' s (e - s), is_visible xr (evAt events j) = true) :
    (is_visible xr (evAt events s) = true →
      s ∈ (collectSegment order events rw rh xr yr tol seen (Segment.Good s e fit)).1) ∧
    (is_visible xr (evAt events (e - 1)) = true →
      (e - 1) ∈
        (collectSegment order events rw rh xr yr tol seen (Segment.Good s e fit)).1) := by
  unfold collectSegment
  dsimp only
  rw [if_neg (by omega)]
  have hany : (List.range' s (e - s)).any (fun j => is_visible xr (evAt events j)) =
      true := by
    rw [List.any_eq_true]
    obtain ⟨j, hj1, hj2⟩ := hvis
    exact ⟨j, hj1, hj2⟩
  rw [if_neg (by rw [hany]; simp)]
  constructor
  · intro hv
    rw [if_pos hv]
    simp
  · intro hv
    by_cases h2 : 1 < e - s
    · have hcond : 1 < e - s ∧ is_visible xr (evAt events (e - 1)) = true := ⟨h2, hv⟩
      rw [if_pos hcond]
      apply List.mem_append_left
      apply List.mem_append_right
      simp
    · have he1 : e - 1 = s := by omega
      rw [he1] at hv ⊢
      rw [if_pos hv]
      simp

theorem collectLoop_mem_of_segment
    {order : List (Pixel × List ℕ) → List (Pixel × List ℕ)}
    (events : List MouseMoveEvent) (rw rh : ℚ) (xr yr : ℚ × ℚ) (tol : ℚ) (x : ℕ) :
    ∀ (segs : List Segment) (seen : Finset Pixel) (seg : Segment), seg ∈ segs →
      (∀ seen2, x ∈ (collectSegment order events rw rh xr yr tol seen2 seg).1) →
      x ∈ collectLoop order events rw rh xr yr tol segs seen := by
  intro segs
  induction segs with
  | nil => intro seen seg h; simp at h
  | cons hd rest ih =>
    intro seen seg hmem hx
    rw [collectLoop]
    rcases List.mem_cons.mp hmem with h1 | h1
    · subst h1
      exact List.mem_append_left _ (hx seen)
    · exact List.mem_append_right _ (ih _ seg h1 hx)

/-- C7: segment boundary preservation in the regression resolver. For every
Good segment of the segment list with a sample in the visible x-range and an
in-bounds index range, the first index s is returned whenever its sample time
is in range, and likewise the last index e-1, for every tolerance, pixel
mapping and zoom factor. -/
theorem c7_segment_boundary_preservation :
    ∀ (segments : List Segment) (events : List MouseMoveEvent) (rw rh : ℚ)
        (xr yr : ℚ × ℚ) (tol zf : ℚ) (s e : ℕ) (fit : SegmentFit),
      Segment.Good s e fit ∈ segments → s < e → e ≤ events.length →
      (∃ j ∈ List.range' s (e - s), is_visible xr (evAt events j) = true) →
      (is_visible xr (evAt events s) = true →
        s ∈ collect_visible_indices segments events rw rh xr yr tol zf) ∧
      (is_visible xr (evAt events (e - 1)) = true →
        (e - 1) ∈ collect_visible_indices segments events rw rh xr yr tol zf) := by
  intro segments events rw rh xr yr tol zf s e fit hmem hse hlen hvis
  have hev : events ≠ [] := by
    intro hc
    rw [hc] at hlen
    simp at hlen
    omega
  have hsegs : segments ≠ [] := by
    intro hc
    rw [hc] at hmem
    simp at hmem
  have hfin : ∀ x : ℕ,
      x ∈ collectLoop (fun l => l) events rw rh xr yr tol segments ∅ →
      x ∈ collect_visible_indices segments events rw rh xr yr tol zf := by
    intro x hx
    unfold collect_visible_indices collectVisibleIndicesWith
    rw [if_neg (by simp [hev, hsegs])]
    exact (mem_dedupConsecutive _ x).mpr ((List.mem_insertionSort _).mpr hx)
  constructor
  · intro hv
    refine hfin s (collectLoop_mem_of_segment events rw rh xr yr tol s segments ∅
      (Segment.Good s e fit) hmem ?_)
    intro seen2
    exact (collectSegment_boundary events rw rh xr yr tol seen2 s e fit hse hlen
      hvis).1 hv
  · intro hv
    refine hfin (e - 1) (collectLoop_mem_of_segment events rw rh xr yr tol (e - 1)
      segments ∅ (Segment.Good s e fit) hmem ?_)
    intro seen2
    exact (collectSegment_boundary events rw rh xr yr tol seen2 s e fit hse hlen
      hvis).2 hv

/-- Witness for c7 at a concrete Good segment over four samples. -/
theorem c7_witness :
    0 ∈ collect_visible_indices
        [Segment.Good 0 4 ⟨0, 4, Poly3.zero, Poly3.zero, Poly3.zero, 1, 1, 1⟩]
        [⟨0, 0, 0, 0⟩, ⟨1, 1, 1, 0⟩, ⟨2, 2, 2, 0⟩, ⟨3, 3, 3, 0⟩] 100 100 (0, 10)
        (0, 10) 3 (3 / 2) ∧
      3 ∈ collect_visible_indices
        [Segment.Good 0 4 ⟨0, 4, Poly3.zero, Poly3.zero, Poly3.zero, 1, 1, 1⟩]
        [⟨0, 0, 0, 0⟩, ⟨1, 1, 1, 0⟩, ⟨2, 2, 2, 0⟩, ⟨3, 3, 3, 0⟩] 100 100 (0, 10)
        (0, 10) 3 (3 / 2) :=
  ⟨(c7_segment_boundary_preservation
      [Segment.Good 0 4 ⟨0, 4, Poly3.zero, Poly3.zero, Poly3.zero, 1, 1, 1⟩]
      [⟨0, 0, 0, 0⟩, ⟨1, 1, 1, 0⟩, ⟨2, 2, 2, 0⟩, ⟨3, 3, 3, 0⟩] 100 100 (0, 10)
      (0, 10) 3 (3 / 2) 0 4 ⟨0, 4, Poly3.zero, Poly3.zero, Poly3.zero, 1, 1, 1⟩
      (by decide) (by decide) (by decide) (by decide)).1 (by decide),
   (c7_segment_boundary_preservation
      [Segment.Good 0 4 ⟨0, 4, Poly3.zero, Poly3.zero, Poly3.zero, 1, 1, 1⟩]
      [⟨0, 0, 0, 0⟩, ⟨1, 1, 1, 0⟩, ⟨2, 2, 2, 0⟩, ⟨3, 3, 3, 0⟩] 100 100 (0, 10)
      (0, 10) 3 (3 / 2) 0 4 ⟨0, 4, Poly3.zero, Poly3.zero, Poly3.zero, 1, 1, 1⟩
      (by decide) (by decide) (by decide) (by decide)).2 (by decide)⟩

theorem insertGroup_keys :
    ∀ (l : List (Pixel × List ℕ)) (p : Pixel) (i : ℕ),
      (insertGroup l p i).map Prod.fst =
        if p ∈ l.map Prod.fst then l.map Prod.fst else l.map Prod.fst ++ [p] := by
  intro l
  induction l with
  | nil => intro p i; simp [insertGroup]
  | cons hd tl ih =>
    intro p i
    rw [insertGroup]
    by_cases hq : hd.1 = p
    · subst hq
      rw [if_pos rfl]
      simp only [List.map_cons]
      rw [if_pos (List.mem_cons_self _ _)]
    · rw [if_neg hq]
      simp only [List.map_cons, ih]
      by_cases hp : p ∈ tl.map Prod.fst
      · rw [if_pos hp, if_pos (List.mem_cons_of_mem _ hp)]
      · rw [if_neg hp, if_neg ?_]
        · simp
        · intro hc
          rcases List.mem_cons.mp hc with h1 | h1
          · exact hq h1.symm
          · exact hp h1

theorem pixelGroups_keys_nodup (events : List MouseMoveEvent) (rw rh : ℚ)
    (xr yr : ℚ × ℚ) (s e : ℕ) :
    ((pixelGroups events rw rh xr yr s e).map Prod.fst).Nodup := by
  unfold pixelGroups
  apply List.foldlRecOn (motive := fun acc : List (Pixel × List ℕ) =>
    (acc.map Prod.fst).Nodup)
  · simp
  · intro acc hacc i hi
    dsimp only
    by_cases hv : is_visible xr (evAt events i) = true
    · rw [if_pos hv, insertGroup_keys]
      by_cases hp : toPixel rw rh xr yr (evAt events i) ∈ acc.map Prod.fst
      · rw [if_pos hp]; exact hacc
      · rw [if_neg hp, List.nodup_append]
        refine ⟨hacc, List.nodup_singleton _, ?_⟩
        intro a ha hb
        rw [List.mem_singleton] at hb
        exact hp (hb ▸ ha)
    · rw [if_neg hv]; exact hacc

theorem processPixelBuckets_cons (tol : ℚ) (s e : ℕ) (x : Pixel × List ℕ)
    (rest : List (Pixel × List ℕ)) (seen : Finset Pixel) :
    processPixelBuckets tol s e (x :: rest) seen =
      if x.1 ∈ seen then processPixelBuckets tol s e rest seen
      else
        (emitBucket tol s e x.2 ++
            (processPixelBuckets tol s e rest (insert x.1 seen)).1,
          (processPixelBuckets tol s e rest (insert x.1 seen)).2) := by
  obtain ⟨p, idxs⟩ := x
  rfl

theorem processPixelBuckets_perm (tol : ℚ) (s e : ℕ) :
    ∀ {l l' : List (Pixel × List ℕ)}, l.Perm l' → (l.map Prod.fst).Nodup →
      ∀ seen : Finset Pixel,
        (processPixelBuckets tol s e l seen).1.Perm
            (processPixelBuckets tol s e l' seen).1 ∧
          (processPixelBuckets tol s e l seen).2 =
            (processPixelBuckets tol s e l' seen).2 := by
  intro l l' hperm
  induction hperm with
  | nil => exact fun _ _ => ⟨List.Perm.refl _, rfl⟩
  | cons x h ih =>
    intro hnd seen
    have hnd' : ((List.map Prod.fst) _).Nodup := (by
      simpa using hnd : (x.1 :: List.map Prod.fst _).Nodup).of_cons
    rw [processPixelBuckets_cons, processPixelBuckets_cons]
    by_cases hx : x.1 ∈ seen
    · rw [if_pos hx, if_pos hx]
      exact ih hnd' seen
    · rw [if_neg hx, if_neg hx]
      obtain ⟨hp, hs⟩ := ih hnd' (insert x.1 seen)
      exact ⟨List.Perm.append_left _ hp, hs⟩
  | swap x y t =>
    intro hnd seen
    have hyx : y.1 ≠ x.1 := by
      simp only [List.map_cons, List.nodup_cons, List.mem_cons] at hnd
      exact fun hc => hnd.1 (Or.inl hc)
    simp only [processPixelBuckets_cons]
    by_cases hy : y.1 ∈ seen <;> by_cases hx : x.1 ∈ seen
    · rw [if_pos hy, if_pos hx, if_pos hx, if_pos hy]
      exact ⟨List.Perm.refl _, rfl⟩
    · rw [if_pos hy, if_neg hx, if_neg hx,
        if_pos (Finset.mem_insert_of_mem hy)]
      exact ⟨List.Perm.refl _, rfl⟩
    · rw [if_neg hy, if_pos hx, if_pos (Finset.mem_insert_of_mem hx), if_neg hy]
      exact ⟨List.Perm.refl _, rfl⟩
    · rw [if_neg hy, if_neg hx, if_neg (by
        rw [Finset.mem_insert]
        rintro (hc | hc)
        · exact hyx hc.symm
        · exact hx hc), if_neg (by
        rw [Finset.mem_insert]
        rintro (hc | hc)
        · exact hyx hc
        · exact hy hc)]
      rw [Finset.Insert.comm]
      constructor
      · rw [← List.append_assoc, ← List.append_assoc]
        exact List.Perm.append_right _ List.perm_append_comm
      · rfl
  | trans h1 h2 ih1 ih2 =>
    intro hnd seen
    have hnd2 := ((h1.map Prod.fst).nodup_iff).mp hnd
    obtain ⟨p1, s1⟩ := ih1 hnd seen
    obtain ⟨p2, s2⟩ := ih2 hnd2 seen
    exact ⟨p1.trans p2, s1.trans s2⟩

theorem collectSegment_perm {f g : List (Pixel × List ℕ) → List (Pixel × List ℕ)}
    (hf : ∀ l, (f l).Perm l) (hg : ∀ l, (g l).Perm l)
    (events : List MouseMoveEvent) (rw rh : ℚ) (xr yr : ℚ × ℚ) (tol : ℚ)
    (seen : Finset Pixel) (seg : Segment) :
    (collectSegment f events rw rh xr yr tol seen seg).1.Perm
        (collectSegment g events rw rh xr yr tol seen seg).1 ∧
      (collectSegment f events rw rh xr yr tol seen seg).2 =
        (collectSegment g events rw rh xr yr tol seen seg).2 := by
  cases seg with
  | Discrete idx => exact ⟨List.Perm.refl _, rfl⟩
  | Good s e fit =>
    unfold collectSegment
    dsimp only
    by_cases hg1 : events.length ≤ s ∨ events.length < e
    · simp only [if_pos hg1]; exact ⟨List.Perm.refl _, trivial⟩
    · simp only [if_neg hg1]
      by_cases hv : ¬ ((List.range' s (e - s)).any
          (fun i => is_visible xr (evAt events i))) = true
      · simp only [if_pos hv]; exact ⟨List.Perm.refl _, trivial⟩
      · simp only [if_neg hv]
        have hnd := pixelGroups_keys_nodup events rw rh xr yr s e
        have hperm : (f (pixelGroups events rw rh xr yr s e)).Perm
            (g (pixelGroups events rw rh xr yr s e)) :=
          (hf _).trans (hg _).symm
        have hndf : ((f (pixelGroups events rw rh xr yr s e)).map Prod.fst).Nodup :=
          ((hf _).map Prod.fst).nodup_iff.mpr hnd
        obtain ⟨hp, hs⟩ := processPixelBuckets_perm tol s e hperm hndf seen
        exact ⟨List.Perm.append_left _ hp, hs⟩

theorem collectLoop_perm {f g : List (Pixel × List ℕ) → List (Pixel × List ℕ)}
    (hf : ∀ l, (f l).Perm l) (hg : ∀ l, (g l).Perm l)
    (events : List MouseMoveEvent) (rw rh : ℚ) (xr yr : ℚ × ℚ) (tol : ℚ) :
    ∀ (segs : List Segment) (seen : Finset Pixel),
      (collectLoop f events rw rh xr yr tol segs seen).Perm
        (collectLoop g events rw rh xr yr tol segs seen) := by
  intro segs
  induction segs with
  | nil => intro seen; exact List.Perm.refl _
  | cons seg rest ih =>
    intro seen
    rw [collectLoop, collectLoop]
    obtain ⟨hp, hs⟩ := collectSegment_perm hf hg events rw rh xr yr tol seen seg
    refine hp.append ?_
    rw [hs]
    exact ih _

/-- C9: collect_visible_indices is deterministic in the iteration order of the
per-segment pixel HashMap. The iteration order is modelled as a function
reordering the canonical grouping list; for any two permutation-preserving
orders the results are identical, because pixel keys are unique within a
segment, the seen-pixel set is order-insensitive, and the final sort plus
dedup cancels the push order. -/
theorem c9_collect_deterministic_in_hash_order :
    ∀ (f g : List (Pixel × List ℕ) → List (Pixel × List ℕ)),
      (∀ l, (f l).Perm l) → (∀ l, (g l).Perm l) →
      ∀ (segments : List Segment) (events : List MouseMoveEvent) (rw rh : ℚ)
          (xr yr : ℚ × ℚ) (tol zf : ℚ),
        collectVisibleIndicesWith f segments events rw rh xr yr tol zf =
          collectVisibleIndicesWith g segments events rw rh xr yr tol zf := by
  intro f g hf hg segments events rw rh xr yr tol zf
  unfold collectVisibleIndicesWith
  by_cases hc : events = [] ∨ segments = []
  · rw [if_pos hc, if_pos hc]
  · rw [if_neg hc, if_neg hc]
    have hperm := collectLoop_perm hf hg events rw rh xr yr tol segments ∅
    have h1 : ((collectLoop f events rw rh xr yr tol segments ∅).insertionSort
        (· ≤ ·)).Perm ((collectLoop g events rw rh xr yr tol segments ∅).insertionSort
        (· ≤ ·)) :=
      (List.perm_insertionSort _ _).trans
        (hperm.trans (List.perm_insertionSort _ _).symm)
    rw [List.eq_of_perm_of_sorted h1 (List.sorted_insertionSort _ _)
      (List.sorted_insertionSort _ _)]

/-- Witness for c9: reversed iteration order yields the same result as the
canonical order on a concrete query. -/
theorem c9_witness :
    collectVisibleIndicesWith (fun l => l.reverse)
        [Segment.Good 0 4 ⟨0, 4, Poly3.zero, Poly3.zero, Poly3.zero, 1, 1, 1⟩]
        [⟨0, 0, 0, 0⟩, ⟨1, 1, 1, 0⟩, ⟨2, 2, 2, 0⟩, ⟨3, 3, 3, 0⟩] 100 100 (0, 10)
        (0, 10) 3 1 =
      collectVisibleIndicesWith (fun l => l)
        [Segment.Good 0 4 ⟨0, 4, Poly3.zero, Poly3.zero, Poly3.zero, 1, 1, 1⟩]
        [⟨0, 0, 0, 0⟩, ⟨1, 1, 1, 0⟩, ⟨2, 2, 2, 0⟩, ⟨3, 3, 3, 0⟩] 100 100 (0, 10)
        (0, 10) 3 1 :=
  c9_collect_deterministic_in_hash_order (fun l => l.reverse) (fun l => l)
    (fun l => l.reverse_perm) (fun l => List.Perm.refl l)
    [Segment.Good 0 4 ⟨0, 4, Poly3.zero, Poly3.zero, Poly3.zero, 1, 1, 1⟩]
    [⟨0, 0, 0, 0⟩, ⟨1, 1, 1, 0⟩, ⟨2, 2, 2, 0⟩, ⟨3, 3, 3, 0⟩] 100 100 (0, 10)
    (0, 10) 3 1
